import Mathlib

/-!
A shallow embedding of the nutritional optimizer in optimize/optimize.py
(class opt_engine and its helpers) together with micro_reqs.py, and proofs
about it.

Modelling conventions:
* Food amounts and nutrient values are exact rationals.  All amounts the
  program manipulates are produced from small decimal-fraction literals by
  addition, halving and clipping, which IEEE doubles represent exactly, so
  the rational model matches the float semantics on every structural claim.
* The two pseudo-random primitives are modelled by oracle streams: rolls
  for rand() (a rational in the unit interval) and nats for randrange and
  choice draws (randrange n and choice over a list of length n read the
  next stream value modulo n).  The binomial sample in rand_inst is
  likewise abstracted as one oracle draw reduced modulo food_count + 1.
  Stream positions are threaded explicitly through every operation.
* Python while loops that are not structurally bounded take a fuel
  argument and return none when the fuel runs out; none is the embedding
  of a computation that has not terminated within the given fuel, and a
  statement that no fuel returns a value is the embedding of divergence.
* A failed assert or an uncaught arithmetic exception (division by zero
  during engine construction) is modelled as none.
* The score function lives over the real numbers because it applies a
  logistic sigmoid; everything before the sigmoid is exact rational
  arithmetic coerced into the reals.
-/

/-- A food quantity vector or a nutrient vector: a list of rationals. -/
abbrev Vec := List ℚ

/-- Oracle streams for the two pseudo-random primitives. -/
structure RS where
  rolls : ℕ → ℚ
  nats : ℕ → ℕ

/-- Current read positions inside the two oracle streams. -/
structure RngPos where
  r : ℕ
  n : ℕ
deriving DecidableEq

/-! ## Tuning constants from the top of optimize.py -/

def INIT_RANDOMS : ℕ := 10000

def RND_EXP_ENTRIES : ℕ := 4

def MAX_AMT : ℚ := 5

def POP_SIZE : ℕ := 200

def MUTATE_RATE : ℚ := 1/5

def MUTATE_BIG : ℚ := MUTATE_RATE * (1/5)

def IMMORTALS : ℕ := 5

def MERGE_SIZE : ℕ := 4

def SPARSITY_MAX : ℚ := ((RND_EXP_ENTRIES : ℚ) - 1) * (MAX_AMT * (3/4))

/-! ## Small vector helpers (explicit forms of the scipy array operations) -/

/-- scipy clip: clamp x into the closed interval from lo to hi. -/
def clipQ (x lo hi : ℚ) : ℚ := min (max x lo) hi

/-- The all-zero vector of the given length. -/
def zeroV (n : ℕ) : Vec := List.replicate n 0

/-- Elementwise sum of two vectors (numpy +; truncates like zip). -/
def addV (a b : Vec) : Vec := List.zipWith (· + ·) a b

/-- One row of a matrix product: v (length F) times the F-by-D matrix m. -/
def mulRow (v : Vec) (m : List Vec) (D : ℕ) : Vec :=
  (v.zip m).foldl (fun acc p => addV acc (p.2.map (fun x => p.1 * x))) (zeroV D)

/-- sp.dot(population, foods): every member row times the food matrix. -/
def matMul (pop : List Vec) (m : List Vec) (D : ℕ) : List Vec :=
  pop.map (fun v => mulRow v m D)

/-- The one-hot individual: zeros of length F with 1.0 at index i. -/
def oneHot (F i : ℕ) : Vec := (zeroV F).set i 1

/-- All F one-hot individuals in index order. -/
def oneHotList (F : ℕ) : List Vec := (List.range F).map (oneHot F)

/-- The seen-set filtering of add_to_gen: keep the first occurrence of
every vector, in first-seen order. -/
def dedupKeepFirst (l : List Vec) : List Vec :=
  l.foldl (fun acc v => if v ∈ acc then acc else acc ++ [v]) []

/-! ## The catalog and the nutrient target table -/

/-- One row of ALL_MICROS; the name and unit strings are presentation
only, so the model keeps the nutrient id and the two thresholds. -/
structure Micro where
  id : String
  rda : ℚ
  ul : ℚ
deriving DecidableEq

/-- A food record as read from the input file; the model keeps the
nutrient_id to nutrient_val association list, the only field the
optimizer arithmetic reads. -/
structure Food where
  nutrients : List (String × ℚ)
deriving DecidableEq

/-- The nutrient id of calories. -/
def CAL_ID : String := "208"

/-- The nutrient id of sugar. -/
def SUGAR_ID : String := "269"

/-- dict(...).get(nid, 0.0): a Python dict comprehension keeps the last
binding of a duplicated key, hence the lookup over the reversed list. -/
def dictGet (ns : List (String × ℚ)) (k : String) : ℚ :=
  ((ns.reverse).lookup k).getD 0

/-- extract_nutrients: the tracked-nutrient row of one food, a zero for
every nutrient the food does not list. -/
def extract_nutrients (micros : List Micro) (f : Food) : Vec :=
  micros.map (fun m => dictGet f.nutrients m.id)

/-- The engine construction inputs: the food catalog and the nutrient
target table (ALL_MICROS, injected as configuration). -/
structure Engine where
  food_details : List Food
  micros : List Micro

def Engine.food_count (E : Engine) : ℕ := E.food_details.length

def Engine.foods (E : Engine) : List Vec :=
  E.food_details.map (extract_nutrients E.micros)

def Engine.RDA (E : Engine) : Vec := E.micros.map Micro.rda

def Engine.UL (E : Engine) : Vec := E.micros.map Micro.ul

/-- The ALL_MICROS table of micro_reqs.py. -/
def ALL_MICROS : List Micro :=
  [⟨"320", 900, 3000⟩,
   ⟨"415", 17/10, 100⟩,
   ⟨"418", 12/5, 500⟩,
   ⟨"401", 90, 2000⟩,
   ⟨"323", 15, 1000⟩,
   ⟨"435", 400, 1000⟩,
   ⟨"406", 16, 35⟩,
   ⟨"405", 13/10, 1000⟩,
   ⟨"404", 6/5, 1000⟩,
   ⟨"301", 1200, 2500⟩,
   ⟨"312", 900, 10000⟩,
   ⟨"303", 8, 45⟩,
   ⟨"304", 420, 10000⟩,
   ⟨"315", 23/10, 11⟩,
   ⟨"305", 700, 4000⟩,
   ⟨"317", 55, 400⟩,
   ⟨"309", 11, 40⟩]

/-! ## calories and the fitness score -/

/-- Sum of every entry of the given nutrient id in one food record (the
calories loop adds every matching record). -/
def nutrientSum (f : Food) (nid : String) : ℚ :=
  f.nutrients.foldl (fun acc p => if p.1 = nid then acc + p.2 else acc) 0

/-- calories: total calories and total sugar of an instance; entries
with an amount within 0.00001 of zero are skipped. -/
def calories (details : List Food) (inst : Vec) : ℚ × ℚ :=
  (details.zip inst).foldl
    (fun acc p =>
      if |p.2| < 1/100000 then acc
      else (acc.1 + nutrientSum p.1 CAL_ID * p.2,
            acc.2 + nutrientSum p.1 SUGAR_ID * p.2))
    (0, 0)

/-- numpy mean of a rational vector: sum over length. -/
def meanQ (v : Vec) : ℚ := v.sum / v.length

/-- clip(nutr / RDA, 0.0, 1.01), elementwise. -/
def nutr_scores (E : Engine) (nutr : Vec) : Vec :=
  List.zipWith (fun x r => clipQ (x / r) 0 (101/100)) nutr E.RDA

/-- (nutr - UL) / UL, elementwise. -/
def too_much (E : Engine) (nutr : Vec) : Vec :=
  List.zipWith (fun x u => (x - u) / u) nutr E.UL

/-- too_much[too_much > -0.01].sum(). -/
def tooMuchSum (E : Engine) (nutr : Vec) : ℚ :=
  ((too_much E nutr).filter (fun t => -(1/100) < t)).sum

/-- The logistic sigmoid used on the bad-stuff components. -/
noncomputable def logistic (x : ℝ) : ℝ := 1 / (1 + Real.exp (-x))

/-- numpy mean of a real vector. -/
noncomputable def meanR (l : List ℝ) : ℝ := l.sum / l.length

/-- The fixed component weights SCORE_WEIGHTS. -/
noncomputable def SCORE_WEIGHTS : List ℝ := [2, 1, 9/5, 3/2, 6/5, 1]

/-- The six components of the score before weighting, in source order:
negated mean RDA fraction, negated nutrient score per gram, the filtered
over-UL sum, logistic calories per gram, logistic of the nonzero count
over RND_EXP_ENTRIES, and logistic of sugar. -/
noncomputable def rawComponents (E : Engine) (inst nutr : Vec) : List ℝ :=
  let ns := nutr_scores E nutr
  let cs := calories E.food_details inst
  let grams : ℚ := 100 * inst.sum
  [ -((meanQ ns : ℚ) : ℝ),
    -(((ns.sum / grams : ℚ) : ℝ)),
    ((tooMuchSum E nutr : ℚ) : ℝ),
    logistic (((cs.1 / grams : ℚ) : ℝ)),
    logistic (((inst.filter (fun x => 0 < x)).length : ℝ) / ((RND_EXP_ENTRIES : ℕ) : ℝ)),
    logistic ((cs.2 : ℚ) : ℝ) ]

/-- opt_engine.score: the asserts on the vector dimensions guard the
computation (a failed assert is none); the returned pair is the mean of
the weighted components and the weighted component vector itself. -/
noncomputable def score (E : Engine) (inst nutr : Vec) : Option (ℝ × List ℝ) :=
  if inst.length = E.food_count ∧ nutr.length = E.micros.length ∧
     E.RDA.length = E.UL.length ∧ E.UL.length = nutr.length then
    some (meanR (List.zipWith (· * ·) SCORE_WEIGHTS (rawComponents E inst nutr)),
          List.zipWith (· * ·) SCORE_WEIGHTS (rawComponents E inst nutr))
  else none

/-- The scalar sort key of a (member, nutrition row) pair. -/
noncomputable def scoreKey (E : Engine) (p : Vec × Vec) : ℝ :=
  ((score E p.1 p.2).map Prod.fst).getD 0

/-- The scalar score of an individual with its own derived nutrition. -/
noncomputable def indivScore (E : Engine) (inst : Vec) : ℝ :=
  scoreKey E (inst, mulRow inst E.foods E.micros.length)

/-! ## The mutation operator -/

/-- The big jump modifiers. -/
def BIG_JUMPS : Vec := [3/2, 7/4, 2, 9/4]

/-- The regular jump modifiers. -/
def REG_JUMPS : Vec := [1/4, 1/2, 3/4, 1, 5/4]

/-- The sign choices of a regular jump. -/
def SIGNS : Vec := [-1, 1]

/-- The blank-index search of the big-mutation swap: redraw an index
until the ORIGINAL instance holds a non-positive value there.  Fuel
bounds the number of draws; none embeds a search that never succeeds. -/
def blankSearch (rs : RS) (inst : Vec) : ℕ → ℕ → Option (ℕ × ℕ)
  | _, 0 => none
  | np, fuel + 1 =>
    let b := rs.nats np % inst.length
    if 0 < inst.getD b 0 then blankSearch rs inst (np + 1) fuel
    else some (b, np + 1)

/-- The per-index pass of mutate over enumerate(inst): one roll per
index; skip when the roll exceeds MUTATE_RATE; swap with a blank index
on a big roll at a positive ORIGINAL value; otherwise jump, on the
ORIGINAL value, into the working copy rnd. -/
def mutCore (rs : RS) (inst : Vec) (fuel : ℕ) :
    List (ℕ × ℚ) → RngPos → Vec → Option (Vec × RngPos)
  | [], pos, rnd => some (rnd, pos)
  | (idx, val) :: rest, pos, rnd =>
    let roll := rs.rolls pos.r
    let pos1 : RngPos := ⟨pos.r + 1, pos.n⟩
    if MUTATE_RATE < roll then mutCore rs inst fuel rest pos1 rnd
    else if roll < MUTATE_BIG ∧ 0 < val then
      match blankSearch rs inst pos1.n fuel with
      | none => none
      | some (b, np) =>
        mutCore rs inst fuel rest ⟨pos1.r, np⟩
          ((rnd.set idx (rnd.getD b 0)).set b (rnd.getD idx 0))
    else
      let mods := if roll < MUTATE_BIG then BIG_JUMPS else REG_JUMPS
      let m := mods.getD (rs.nats pos1.n % mods.length) 0
      let pos2 : RngPos := ⟨pos1.r, pos1.n + 1⟩
      if val ≤ 0 then mutCore rs inst fuel rest pos2 (rnd.set idx m)
      else
        let sgn := SIGNS.getD (rs.nats pos2.n % SIGNS.length) 0
        let pos3 : RngPos := ⟨pos2.r, pos2.n + 1⟩
        mutCore rs inst fuel rest pos3 (rnd.set idx (clipQ (val + sgn * m) 0 MAX_AMT))

/-- One pass of the sparsity loop body: zero small entries, halve the
rest with probability 0.70 else zero them; a roll is consumed only when
an entry exceeds 0.1. -/
def sparsePass (rs : RS) : ℕ → Vec → Vec × ℕ
  | rp, [] => ([], rp)
  | rp, x :: xs =>
    if x ≤ 1/10 then
      let t := sparsePass rs rp xs
      (0 :: t.1, t.2)
    else if rs.rolls rp < 7/10 then
      let t := sparsePass rs (rp + 1) xs
      (x / 2 :: t.1, t.2)
    else
      let t := sparsePass rs (rp + 1) xs
      (0 :: t.1, t.2)

/-- The while sum > SPARSITY_MAX loop of mutate, fuelled. -/
def sparsify (rs : RS) : ℕ → ℕ → Vec → Option (Vec × ℕ)
  | 0, _, _ => none
  | fuel + 1, rp, v =>
    if SPARSITY_MAX < v.sum then
      let t := sparsePass rs rp v
      sparsify rs fuel t.2 t.1
    else some (v, rp)

/-- opt_engine.mutate: the per-index pass followed by the sparsity
enforcement loop. -/
def mutate (rs : RS) (fuel : ℕ) (pos : RngPos) (inst : Vec) : Option (Vec × RngPos) :=
  match mutCore rs inst fuel inst.enum pos inst with
  | none => none
  | some (rnd, pos1) =>
    match sparsify rs fuel pos1.r rnd with
    | none => none
    | some (v, rp) => some (v, ⟨rp, pos1.n⟩)

/-! ## crossover, winner, merge, rand_inst -/

/-- The elementwise coin flips of crossover over the zipped parents. -/
def crossGo (rs : RS) : List (ℚ × ℚ) → ℕ → Vec × ℕ
  | [], rp => ([], rp)
  | (x, y) :: rest, rp =>
    let v := if rs.rolls rp < 1/2 then x else y
    let t := crossGo rs rest (rp + 1)
    (v :: t.1, t.2)

/-- opt_engine.crossover: zip truncates to the shorter parent. -/
def crossover (rs : RS) (rp : ℕ) (a b : Vec) : Vec × ℕ :=
  crossGo rs (a.zip b) rp

/-- opt_engine.winner: two uniform indices into the population as held
by the engine, the smaller index wins. -/
def winner (rs : RS) (popLen : ℕ) (np : ℕ) : ℕ × ℕ :=
  (min (rs.nats np % popLen) (rs.nats (np + 1) % popLen), np + 2)

/-- The merge accumulation: add k more tournament-selected members. -/
def mergeAcc (rs : RS) (pop : List Vec) : ℕ → Vec → ℕ → Vec × ℕ
  | 0, acc, np => (acc, np)
  | k + 1, acc, np =>
    let w := winner rs pop.length np
    mergeAcc rs pop k (addV acc (pop.getD w.1 [])) w.2

/-- The merged entry of the fill loop: MERGE_SIZE tournament-selected
members summed elementwise. -/
def mergeVec (rs : RS) (pop : List Vec) (np : ℕ) : Vec × ℕ :=
  let w := winner rs pop.length np
  mergeAcc rs pop (MERGE_SIZE - 1) (pop.getD w.1 []) w.2

/-- The amounts a random instance assigns to its chosen indices. -/
def AMT_CHOICES : Vec := [1/2, 1, 3/2, 2]

/-- Collect distinct indices (in first-drawn order, standing in for the
Python set) until the target count is reached; fuelled. -/
def collectIdxs (rs : RS) (F target : ℕ) : ℕ → List ℕ → ℕ → Option (List ℕ × ℕ)
  | fuel, acc, np =>
    if target ≤ acc.length then some (acc, np)
    else
      match fuel with
      | 0 => none
      | fuel + 1 =>
        let i := rs.nats np % F
        collectIdxs rs F target fuel (if i ∈ acc then acc else acc ++ [i]) (np + 1)

/-- Assign one uniformly chosen amount to every collected index. -/
def assignAmounts (rs : RS) : List ℕ → Vec → ℕ → Vec × ℕ
  | [], inst, np => (inst, np)
  | idx :: rest, inst, np =>
    assignAmounts rs rest
      (inst.set idx (AMT_CHOICES.getD (rs.nats np % AMT_CHOICES.length) 0)) (np + 1)

/-- opt_engine.rand_inst: the binomial sample binom.rvs(F,
RND_EXP_ENTRIES/F) validates its probability argument, so with fewer
than RND_EXP_ENTRIES foods the probability exceeds 1 and the draw
raises ValueError (and with zero foods the probability computation
itself divides by zero), making every rand_inst call fatal: none.
Otherwise the draw itself is one oracle value reduced modulo
food_count + 1, and a draw below 1 is forced to RND_EXP_ENTRIES. -/
def rand_inst (rs : RS) (F fuel : ℕ) (pos : RngPos) : Option (Vec × RngPos) :=
  if F < RND_EXP_ENTRIES then none
  else
    let entries0 := rs.nats pos.n % (F + 1)
    let entries := if entries0 < 1 then RND_EXP_ENTRIES else entries0
    match collectIdxs rs F entries fuel [] (pos.n + 1) with
    | none => none
    | some (idxs, np) =>
      let t := assignAmounts rs idxs (zeroV F) np
      some (t.1, ⟨pos.r, t.2⟩)

/-- INIT_RANDOMS successive random instances. -/
def randList (rs : RS) (F fuel : ℕ) : ℕ → RngPos → Option (List Vec × RngPos)
  | 0, pos => some ([], pos)
  | k + 1, pos =>
    match rand_inst rs F fuel pos with
    | none => none
    | some (v, pos1) =>
      match randList rs F fuel k pos1 with
      | none => none
      | some (tl, pos2) => some (v :: tl, pos2)

/-! ## The engine state and one generation of work -/

/-- The mutable fields of opt_engine: the population, its cached
nutrition grid, and the sorted snapshot of the previous generation. -/
structure EState where
  population : List Vec
  popnutrition : List Vec
  last_population : List Vec
  last_popnutrition : List Vec

/-- opt_engine.set_pop: replace the population and recompute the
nutrition grid with one matrix multiply. -/
def set_pop (E : Engine) (st : EState) (pop : List Vec) : EState :=
  { st with population := pop, popnutrition := matMul pop E.foods E.micros.length }

/-- The stable ascending sort of (member, nutrition row) pairs by the
scalar score, as all_scored.sort(key=...) does. -/
noncomputable def sortPop (E : Engine) (pairs : List (Vec × Vec)) : List (Vec × Vec) :=
  pairs.mergeSort (fun a b => decide (scoreKey E a ≤ scoreKey E b))

/-- The members of the previous generation in ascending score order. -/
noncomputable def sortedInsts (E : Engine) (st : EState) : List Vec :=
  (sortPop E (st.population.zip st.popnutrition)).map Prod.fst

/-- The top IMMORTALS members of the score-sorted previous generation. -/
noncomputable def topElites (E : Engine) (st : EState) : List Vec :=
  (sortedInsts E st).take IMMORTALS

/-- The one-off loop of the elitism block over enumerate(inst): for
every positive entry, offer the vector with that entry zeroed and a
mutated copy of it. -/
def oneOffs (rs : RS) (fuel : ℕ) (inst : Vec) :
    List (ℕ × ℚ) → RngPos → Option (List Vec × RngPos)
  | [], pos => some ([], pos)
  | (idx, val) :: rest, pos =>
    if 0 < val then
      match mutate rs fuel pos (inst.set idx 0) with
      | none => none
      | some (m, pos1) =>
        match oneOffs rs fuel inst rest pos1 with
        | none => none
        | some (tl, pos2) => some (inst.set idx 0 :: m :: tl, pos2)
    else oneOffs rs fuel inst rest pos

/-- The elitism block: every elite verbatim, a mutated copy, and the
one-off variants with their mutated copies, in source order. -/
def eliteOffers (rs : RS) (fuel : ℕ) : List Vec → RngPos → Option (List Vec × RngPos)
  | [], pos => some ([], pos)
  | inst :: rest, pos =>
    match mutate rs fuel pos inst with
    | none => none
    | some (m, pos1) =>
      match oneOffs rs fuel inst inst.enum pos1 with
      | none => none
      | some (offs, pos2) =>
        match eliteOffers rs fuel rest pos2 with
        | none => none
        | some (tl, pos3) => some (inst :: m :: (offs ++ tl), pos3)

/-- The merge-then-mutate construction of the fill loop: sum MERGE_SIZE
tournament winners and mutate the sum. -/
def mergeMutate (rs : RS) (fuel : ℕ) (pop : List Vec) (pos : RngPos) :
    Option (Vec × RngPos) :=
  mutate rs fuel ⟨pos.r, (mergeVec rs pop pos.n).2⟩ (mergeVec rs pop pos.n).1

/-- The select-crossover-mutate construction of the fill loop: cross two
tournament winners and mutate the child. -/
def crossMutate (rs : RS) (fuel : ℕ) (pop : List Vec) (pos : RngPos) :
    Option (Vec × RngPos) :=
  let w1 := winner rs pop.length pos.n
  let w2 := winner rs pop.length w1.2
  let cx := crossover rs pos.r (pop.getD w1.1 []) (pop.getD w2.1 [])
  mutate rs fuel ⟨cx.2, w2.2⟩ cx.1

/-- The fill loop, POP_SIZE rounds: a fresh random instance, a mutated
merge of MERGE_SIZE tournament winners, and a mutated crossover of two
tournament winners.  Selection reads the population as the engine holds
it (the insertion order of the previous round), not the sorted
snapshot. -/
def fillOffers (rs : RS) (fuel F : ℕ) (pop : List Vec) :
    ℕ → RngPos → Option (List Vec × RngPos)
  | 0, pos => some ([], pos)
  | k + 1, pos =>
    match rand_inst rs F fuel pos with
    | none => none
    | some (r, pos1) =>
      match mergeMutate rs fuel pop pos1 with
      | none => none
      | some (mm, pos2) =>
        match crossMutate rs fuel pop pos2 with
        | none => none
        | some (cm, pos3) =>
          match fillOffers rs fuel F pop k pos3 with
          | none => none
          | some (tl, pos4) => some (r :: mm :: cm :: tl, pos4)

/-- The candidate pool of one generation, in the order add_to_gen sees
it: the elitism block then the fill block.  The guard embeds the fatal
paths: an empty population makes randrange raise inside the fill loop,
and a member or nutrition row of the wrong length fails the asserts of
score during evaluation. -/
noncomputable def genOffers (E : Engine) (rs : RS) (fuel : ℕ) (pos : RngPos)
    (st : EState) : Option (List Vec × RngPos) :=
  if st.population ≠ [] ∧
     ∀ p ∈ st.population.zip st.popnutrition,
       p.1.length = E.food_count ∧ p.2.length = E.micros.length ∧
       E.RDA.length = E.UL.length ∧ E.UL.length = p.2.length then
    match eliteOffers rs fuel (topElites E st) pos with
    | none => none
    | some (eo, pos1) =>
      match fillOffers rs fuel E.food_count st.population POP_SIZE pos1 with
      | none => none
      | some (fo, pos2) => some (eo ++ fo, pos2)
  else none

/-- opt_engine.generation: snapshot the sorted previous generation, then
install the deduplicated candidate pool with set_pop. -/
noncomputable def generation (E : Engine) (rs : RS) (fuel : ℕ) (pos : RngPos)
    (st : EState) : Option (EState × RngPos) :=
  match genOffers E rs fuel pos st with
  | none => none
  | some (offs, pos1) =>
    some (set_pop E
      { st with last_population := sortedInsts E st,
                last_popnutrition := matMul (sortedInsts E st) E.foods E.micros.length }
      (dedupKeepFirst offs), pos1)

/-- opt_engine.__init__: an empty catalog raises ZeroDivisionError while
computing the binomial probability (none); otherwise the population is
the F one-hot members followed by INIT_RANDOMS random instances, and
set_pop fills the nutrition grid. -/
def initEngine (E : Engine) (rs : RS) (fuel : ℕ) (pos : RngPos) :
    Option (EState × RngPos) :=
  if E.food_count = 0 then none
  else
    match randList rs E.food_count fuel INIT_RANDOMS pos with
    | none => none
    | some (rnds, pos1) =>
      some (set_pop E ⟨[], [], [], []⟩ (oneHotList E.food_count ++ rnds), pos1)

/-! ## Concrete data for the worked example and the counterexamples -/

/-- FoodA of the worked example: 900 of nutrient 320, 100 calories. -/
def foodA : Food := ⟨[("320", 900), ("208", 100)]⟩

/-- FoodB of the worked example: all tracked nutrients zero, 50 calories. -/
def foodB : Food := ⟨[("208", 50)]⟩

/-- The single target of the worked example: id 320, RDA 900, UL 3000. -/
def microVitA : Micro := ⟨"320", 900, 3000⟩

/-- The worked-example engine configuration. -/
def exEngine : Engine := ⟨[foodA, foodB], [microVitA]⟩

/-- A four-food engine (FoodA and three copies of FoodB), large enough
for the binomial probability RND_EXP_ENTRIES/food_count to be valid. -/
def exEngine4 : Engine := ⟨[foodA, foodB, foodB, foodB], [microVitA]⟩

/-- The constant-zero oracle streams. -/
def rsZero : RS := ⟨fun _ => 0, fun _ => 0⟩

/-- Streams whose every roll is the big-mutation value 0.01. -/
def rsBig : RS := ⟨fun _ => 1/100, fun _ => 0⟩

/-- Streams for the merge counterexample: the first roll skips the
per-index mutation, later rolls halve inside the sparsity loop. -/
def rsMerge : RS := ⟨fun i => if i = 0 then 1 else 0, fun _ => 0⟩

/-- Streams whose nat draws are all 1, used to drive construction. -/
def rsOne : RS := ⟨fun _ => 0, fun _ => 1⟩

/-- Streams whose nat draws enumerate 0, 1, 2, ... -/
def rsSeq : RS := ⟨fun _ => 0, fun i => i⟩

/-! ## Specification predicates -/

/-- Every entry of the vector is nonnegative. -/
def nonnegV (v : Vec) : Prop := ∀ x ∈ v, 0 ≤ x

/-- Every entry of the vector lies in the closed interval from 0 to c. -/
def boundedV (c : ℚ) (v : Vec) : Prop := ∀ x ∈ v, 0 ≤ x ∧ x ≤ c

/-- Every member of the population is bounded by SPARSITY_MAX. -/
def popBounded (P : List Vec) : Prop := ∀ v ∈ P, boundedV SPARSITY_MAX v

instance (c : ℚ) (v : Vec) : Decidable (boundedV c v) :=
  List.decidableBAll _ v

instance (P : List Vec) : Decidable (popBounded P) :=
  List.decidableBAll _ P

/-- The vector is in the candidate pool, and so is a mutated copy of it
obtained from some stream positions. -/
def offeredWithMutant (rs : RS) (fuel : ℕ) (offs : List Vec) (v : Vec) : Prop :=
  v ∈ offs ∧ ∃ q m q', mutate rs fuel q v = some (m, q') ∧ m ∈ offs

/-- The elitism obligations for one elite: offered verbatim with a
mutated copy, and for every positive entry the one-off variant with
that entry zeroed is offered with a mutated copy as well. -/
def offeredElite (rs : RS) (fuel : ℕ) (offs : List Vec) (inst : Vec) : Prop :=
  offeredWithMutant rs fuel offs inst ∧
  ∀ iv ∈ inst.enum, 0 < iv.2 → offeredWithMutant rs fuel offs (inst.set iv.1 0)

/-- Every listed elite meets its elitism obligations in the pool. -/
def elitesOffered (rs : RS) (fuel : ℕ) (elites offs : List Vec) : Prop :=
  ∀ inst ∈ elites, offeredElite rs fuel offs inst

/-- The shape of the freshly constructed engine state: F one-hot members
followed by INIT_RANDOMS random instances whose entries come from
AMT_CHOICES, with the nutrition grid equal to the matrix product. -/
def initPopSpec (E : Engine) (st : EState) : Prop :=
  st.population.length = E.food_count + INIT_RANDOMS ∧
  st.population.take E.food_count = oneHotList E.food_count ∧
  (∀ v ∈ st.population.drop E.food_count,
    v.length = E.food_count ∧ ∀ x ∈ v, x = 0 ∨ x ∈ AMT_CHOICES) ∧
  st.popnutrition = matMul st.population E.foods E.micros.length

/-- The six raw components the worked example of the specification
lists for the individual [1.0, 0.0]. -/
noncomputable def rawClaim : List ℝ :=
  [-1, -(1/100), 0, logistic 1, logistic (1/4), logistic 0]

/-- The six raw components of the all-zero food [0.0, 1.0] in the
worked-example engine. -/
noncomputable def rawOther : List ℝ :=
  [0, 0, 0, logistic (1/2), logistic (1/4), logistic 0]

/-! ## Basic vector lemmas and the mutation operator facts -/

instance (v : Vec) : Decidable (nonnegV v) := List.decidableBAll _ v

theorem clipQ_nonneg (x hi : ℚ) (h : 0 ≤ hi) : 0 ≤ clipQ x 0 hi :=
  le_min (le_max_right x 0) h

theorem getD_mem {l : Vec} {i : ℕ} {d : ℚ} (h : i < l.length) : l.getD i d ∈ l := by
  rw [List.getD_eq_getElem l d h]
  exact List.getElem_mem h

theorem nonnegV_getD {v : Vec} (h : nonnegV v) (i : ℕ) : 0 ≤ v.getD i 0 := by
  by_cases hi : i < v.length
  · exact h _ (getD_mem hi)
  · rw [List.getD_eq_default _ _ (le_of_not_lt hi)]

theorem nonnegV_set {v : Vec} {a : ℚ} (hv : nonnegV v) (ha : 0 ≤ a) (i : ℕ) :
    nonnegV (v.set i a) := by
  intro x hx
  rcases List.mem_or_eq_of_mem_set hx with h | h
  · exact hv x h
  · exact h ▸ ha

theorem nonnegV_BIG : nonnegV BIG_JUMPS := by with_unfolding_all decide

theorem nonnegV_REG : nonnegV REG_JUMPS := by with_unfolding_all decide

theorem sparsePass_length (rs : RS) : ∀ (rp : ℕ) (v : Vec),
    (sparsePass rs rp v).1.length = v.length := by
  intro rp v
  induction v generalizing rp with
  | nil => simp [sparsePass]
  | cons x xs ih =>
    simp only [sparsePass]
    split_ifs <;> simp [ih]

theorem sparsePass_nonneg (rs : RS) : ∀ (rp : ℕ) (v : Vec),
    nonnegV (sparsePass rs rp v).1 := by
  intro rp v
  induction v generalizing rp with
  | nil => intro x hx; simp [sparsePass] at hx
  | cons x xs ih =>
    intro y hy
    simp only [sparsePass] at hy
    split_ifs at hy with h1 h2
    · rcases List.mem_cons.1 hy with h | h
      · simp [h]
      · exact ih rp y h
    · rcases List.mem_cons.1 hy with h | h
      · have hx : (1:ℚ)/10 < x := lt_of_not_le h1
        have hx0 : (0:ℚ) < x := lt_trans (by norm_num) hx
        rw [h]
        positivity
      · exact ih (rp + 1) y h
    · rcases List.mem_cons.1 hy with h | h
      · simp [h]
      · exact ih (rp + 1) y h

theorem sparsePass_sum_le (rs : RS) : ∀ (rp : ℕ) (v : Vec), nonnegV v →
    (sparsePass rs rp v).1.sum ≤ v.sum / 2 := by
  intro rp v
  induction v generalizing rp with
  | nil => intro _; simp [sparsePass]
  | cons x xs ih =>
    intro hv
    have hx : (0:ℚ) ≤ x := hv x (by simp)
    have hxs : nonnegV xs := fun t ht => hv t (by simp [ht])
    simp only [sparsePass]
    split_ifs with h1 h2
    · have := ih rp hxs
      simp only [List.sum_cons]
      linarith
    · have := ih (rp + 1) hxs
      simp only [List.sum_cons]
      linarith
    · have := ih (rp + 1) hxs
      simp only [List.sum_cons]
      linarith

theorem sparsify_some_sum (rs : RS) : ∀ (fuel rp : ℕ) (v w : Vec) (rp' : ℕ),
    sparsify rs fuel rp v = some (w, rp') → w.sum ≤ SPARSITY_MAX := by
  intro fuel
  induction fuel with
  | zero => intro rp v w rp' h; simp [sparsify] at h
  | succ fuel ih =>
    intro rp v w rp' h
    simp only [sparsify] at h
    split_ifs at h with hg
    · exact ih _ _ _ _ h
    · cases h
      exact le_of_not_lt hg

theorem sparsify_length (rs : RS) : ∀ (fuel rp : ℕ) (v w : Vec) (rp' : ℕ),
    sparsify rs fuel rp v = some (w, rp') → w.length = v.length := by
  intro fuel
  induction fuel with
  | zero => intro rp v w rp' h; simp [sparsify] at h
  | succ fuel ih =>
    intro rp v w rp' h
    simp only [sparsify] at h
    split_ifs at h with hg
    · rw [ih _ _ _ _ h, sparsePass_length]
    · cases h
      rfl

theorem sparsify_nonneg (rs : RS) : ∀ (fuel rp : ℕ) (v w : Vec) (rp' : ℕ),
    nonnegV v → sparsify rs fuel rp v = some (w, rp') → nonnegV w := by
  intro fuel
  induction fuel with
  | zero => intro rp v w rp' _ h; simp [sparsify] at h
  | succ fuel ih =>
    intro rp v w rp' hv h
    simp only [sparsify] at h
    split_ifs at h with hg
    · exact ih _ _ _ _ (sparsePass_nonneg rs rp v) h
    · cases h
      exact hv

theorem mutCore_length (rs : RS) (inst : Vec) (fuel : ℕ) :
    ∀ (pairs : List (ℕ × ℚ)) (pos : RngPos) (rnd v : Vec) (pos' : RngPos),
    mutCore rs inst fuel pairs pos rnd = some (v, pos') → v.length = rnd.length := by
  intro pairs
  induction pairs with
  | nil =>
    intro pos rnd v pos' h
    simp only [mutCore] at h
    cases h
    rfl
  | cons hd rest ih =>
    rcases hd with ⟨idx, val⟩
    intro pos rnd v pos' h
    simp only [mutCore] at h
    split_ifs at h with h1 h2
    · exact ih _ _ _ _ h
    · rcases hb : blankSearch rs inst pos.n fuel with _ | ⟨b, np⟩
      · rw [hb] at h
        simp at h
      · rw [hb] at h
        simp only [] at h
        have := ih _ _ _ _ h
        simpa using this
    all_goals
      have := ih _ _ _ _ h
      simpa using this

theorem mutCore_nonneg (rs : RS) (inst : Vec) (fuel : ℕ) :
    ∀ (pairs : List (ℕ × ℚ)) (pos : RngPos) (rnd v : Vec) (pos' : RngPos),
    nonnegV rnd → mutCore rs inst fuel pairs pos rnd = some (v, pos') → nonnegV v := by
  intro pairs
  induction pairs with
  | nil =>
    intro pos rnd v pos' hr h
    simp only [mutCore] at h
    cases h
    exact hr
  | cons hd rest ih =>
    rcases hd with ⟨idx, val⟩
    intro pos rnd v pos' hr h
    simp only [mutCore] at h
    split_ifs at h with h1 h2
    · exact ih _ _ _ _ hr h
    · rcases hb : blankSearch rs inst pos.n fuel with _ | ⟨b, np⟩
      · rw [hb] at h
        simp at h
      · rw [hb] at h
        simp only [] at h
        refine ih _ _ _ _ ?_ h
        exact nonnegV_set (nonnegV_set hr (nonnegV_getD hr b) idx) (nonnegV_getD hr idx) b
    all_goals
      refine ih _ _ _ _ ?_ h
      first
      | exact nonnegV_set hr (nonnegV_getD nonnegV_BIG _) idx
      | exact nonnegV_set hr (nonnegV_getD nonnegV_REG _) idx
      | exact nonnegV_set hr (clipQ_nonneg _ _ (by norm_num [MAX_AMT])) idx

theorem mutate_some_parts (rs : RS) (fuel : ℕ) (pos : RngPos) (inst v : Vec)
    (pos' : RngPos) (h : mutate rs fuel pos inst = some (v, pos')) :
    v.length = inst.length ∧ v.sum ≤ SPARSITY_MAX ∧
    (nonnegV inst → nonnegV v) := by
  simp only [mutate] at h
  rcases hc : mutCore rs inst fuel inst.enum pos inst with _ | ⟨rnd, pos1⟩
  · rw [hc] at h
    simp at h
  · rw [hc] at h
    simp only [] at h
    rcases hs : sparsify rs fuel pos1.r rnd with _ | ⟨w, rp⟩
    · rw [hs] at h
      simp at h
    · rw [hs] at h
      simp only [] at h
      cases h
      refine ⟨?_, sparsify_some_sum rs _ _ _ _ _ hs, ?_⟩
      · rw [sparsify_length rs _ _ _ _ _ hs, mutCore_length rs inst fuel _ _ _ _ _ hc]
      · intro hinst
        exact sparsify_nonneg rs _ _ _ _ _
          (mutCore_nonneg rs inst fuel _ _ _ _ _ hinst hc) hs

theorem mutate_bounded (rs : RS) (fuel : ℕ) (pos : RngPos) (inst v : Vec)
    (pos' : RngPos) (h : mutate rs fuel pos inst = some (v, pos'))
    (hi : nonnegV inst) : boundedV SPARSITY_MAX v := by
  rcases mutate_some_parts rs fuel pos inst v pos' h with ⟨_, hsum, hnn⟩
  have hv := hnn hi
  intro x hx
  exact ⟨hv x hx, le_trans (List.single_le_sum hv x hx) hsum⟩

/-- C5.  A value returned by mutate has the length of its input, and
its entries sum to at most SPARSITY_MAX (11.25), which establishes the
claimed disjunction with the all-zero case. -/
theorem mutate_length_and_sum_bound (rs : RS) (fuel : ℕ) (pos : RngPos)
    (inst v : Vec) (pos' : RngPos) (h : mutate rs fuel pos inst = some (v, pos')) :
    v.length = inst.length ∧ (v.sum ≤ SPARSITY_MAX ∨ ∀ x ∈ v, x = 0) := by
  rcases mutate_some_parts rs fuel pos inst v pos' h with ⟨h1, h2, _⟩
  exact ⟨h1, Or.inl h2⟩

/-- Witness for C5 at the concrete input [0] with the zero streams. -/
theorem mutate_length_and_sum_bound_witness :
    mutate rsZero 1 ⟨0, 0⟩ [0] = some ([3/2], ⟨1, 1⟩) ∧
    ([3/2] : Vec).length = ([0] : Vec).length ∧
    (([3/2] : Vec).sum ≤ SPARSITY_MAX ∨ ∀ x ∈ ([3/2] : Vec), x = 0) :=
  ⟨by with_unfolding_all decide,
   mutate_length_and_sum_bound rsZero 1 ⟨0, 0⟩ [0] [3/2] ⟨1, 1⟩
     (by with_unfolding_all decide)⟩

theorem blankSearch_eq (rs : RS) (inst : Vec) (np fuel : ℕ) :
    blankSearch rs inst np (fuel + 1) =
      if 0 < inst.getD (rs.nats np % inst.length) 0 then blankSearch rs inst (np + 1) fuel
      else some (rs.nats np % inst.length, np + 1) := rfl

theorem sparsify_eq (rs : RS) (fuel rp : ℕ) (v : Vec) :
    sparsify rs (fuel + 1) rp v =
      if SPARSITY_MAX < v.sum then
        sparsify rs fuel (sparsePass rs rp v).2 (sparsePass rs rp v).1
      else some (v, rp) := rfl

theorem blankSearch_succ (rs : RS) (inst : Vec) :
    ∀ (f np : ℕ) (r : ℕ × ℕ), blankSearch rs inst np f = some r →
    blankSearch rs inst np (f + 1) = some r := by
  intro f
  induction f with
  | zero => intro np r h; simp [blankSearch] at h
  | succ f ih =>
    intro np r h
    rw [blankSearch_eq] at h ⊢
    split_ifs at h ⊢ with h1
    · exact ih _ _ h
    · exact h

theorem blankSearch_mono (rs : RS) (inst : Vec) {f f' : ℕ} (hle : f ≤ f') :
    ∀ (np : ℕ) (r : ℕ × ℕ), blankSearch rs inst np f = some r →
    blankSearch rs inst np f' = some r := by
  induction hle with
  | refl => exact fun np r h => h
  | step _ ih => exact fun np r h => blankSearch_succ rs inst _ np r (ih np r h)

theorem sparsify_succ (rs : RS) :
    ∀ (f rp : ℕ) (v : Vec) (r : Vec × ℕ), sparsify rs f rp v = some r →
    sparsify rs (f + 1) rp v = some r := by
  intro f
  induction f with
  | zero => intro rp v r h; simp [sparsify] at h
  | succ f ih =>
    intro rp v r h
    rw [sparsify_eq] at h ⊢
    split_ifs at h ⊢ with h1
    · exact ih _ _ _ h
    · exact h

theorem sparsify_mono (rs : RS) {f f' : ℕ} (hle : f ≤ f') :
    ∀ (rp : ℕ) (v : Vec) (r : Vec × ℕ), sparsify rs f rp v = some r →
    sparsify rs f' rp v = some r := by
  induction hle with
  | refl => exact fun rp v r h => h
  | step _ ih => exact fun rp v r h => sparsify_succ rs _ rp v r (ih rp v r h)

theorem mutCore_cons (rs : RS) (inst : Vec) (fuel idx : ℕ) (val : ℚ)
    (rest : List (ℕ × ℚ)) (pos : RngPos) (rnd : Vec) :
    mutCore rs inst fuel ((idx, val) :: rest) pos rnd =
      if MUTATE_RATE < rs.rolls pos.r then
        mutCore rs inst fuel rest ⟨pos.r + 1, pos.n⟩ rnd
      else if rs.rolls pos.r < MUTATE_BIG ∧ 0 < val then
        match blankSearch rs inst pos.n fuel with
        | none => none
        | some (b, np) =>
          mutCore rs inst fuel rest ⟨pos.r + 1, np⟩
            ((rnd.set idx (rnd.getD b 0)).set b (rnd.getD idx 0))
      else if val ≤ 0 then
        mutCore rs inst fuel rest ⟨pos.r + 1, pos.n + 1⟩
          (rnd.set idx ((if rs.rolls pos.r < MUTATE_BIG then BIG_JUMPS else REG_JUMPS).getD
            (rs.nats pos.n % (if rs.rolls pos.r < MUTATE_BIG then BIG_JUMPS
              else REG_JUMPS).length) 0))
      else
        mutCore rs inst fuel rest ⟨pos.r + 1, pos.n + 1 + 1⟩
          (rnd.set idx (clipQ (val + SIGNS.getD (rs.nats (pos.n + 1) % SIGNS.length) 0 *
            (if rs.rolls pos.r < MUTATE_BIG then BIG_JUMPS else REG_JUMPS).getD
              (rs.nats pos.n % (if rs.rolls pos.r < MUTATE_BIG then BIG_JUMPS
                else REG_JUMPS).length) 0) 0 MAX_AMT)) := rfl

theorem mutCore_succ (rs : RS) (inst : Vec) :
    ∀ (pairs : List (ℕ × ℚ)) (f : ℕ) (pos : RngPos) (rnd : Vec) (r : Vec × RngPos),
    mutCore rs inst f pairs pos rnd = some r →
    mutCore rs inst (f + 1) pairs pos rnd = some r := by
  intro pairs
  induction pairs with
  | nil => intro f pos rnd r h; simpa [mutCore] using h
  | cons hd rest ih =>
    rcases hd with ⟨idx, val⟩
    intro f pos rnd r h
    simp only [mutCore] at h ⊢
    split_ifs at h ⊢ with h1 h2
    · exact ih _ _ _ _ h
    · rcases hb : blankSearch rs inst pos.n f with _ | ⟨b, np⟩
      · rw [hb] at h
        simp at h
      · rw [hb] at h
        rw [blankSearch_succ rs inst f pos.n (b, np) hb]
        simp only [] at h ⊢
        exact ih _ _ _ _ h
    all_goals exact ih _ _ _ _ h

theorem mutCore_mono (rs : RS) (inst : Vec) {f f' : ℕ} (hle : f ≤ f') :
    ∀ (pairs : List (ℕ × ℚ)) (pos : RngPos) (rnd : Vec) (r : Vec × RngPos),
    mutCore rs inst f pairs pos rnd = some r →
    mutCore rs inst f' pairs pos rnd = some r := by
  induction hle with
  | refl => exact fun pairs pos rnd r h => h
  | step _ ih =>
    exact fun pairs pos rnd r h => mutCore_succ rs inst pairs _ pos rnd r (ih pairs pos rnd r h)

theorem blankSearch_exists (rs : RS) (inst : Vec) :
    ∀ (k np : ℕ), inst.getD (rs.nats (np + k) % inst.length) 0 ≤ 0 →
    ∃ f r, blankSearch rs inst np f = some r := by
  intro k
  induction k with
  | zero =>
    intro np h
    refine ⟨1, (rs.nats np % inst.length, np + 1), ?_⟩
    simp only [blankSearch]
    rw [if_neg (not_lt.2 (by simpa using h))]
  | succ k ih =>
    intro np h
    by_cases hc : 0 < inst.getD (rs.nats np % inst.length) 0
    · have h1 : inst.getD (rs.nats (np + 1 + k) % inst.length) 0 ≤ 0 := by
        have he : np + 1 + k = np + (k + 1) := by omega
        rw [he]
        exact h
      rcases ih (np + 1) h1 with ⟨f, r, hf⟩
      refine ⟨f + 1, r, ?_⟩
      simp only [blankSearch]
      rw [if_pos hc]
      exact hf
    · refine ⟨1, (rs.nats np % inst.length, np + 1), ?_⟩
      simp only [blankSearch]
      rw [if_neg hc]

theorem sparsify_exists_nonneg (rs : RS) :
    ∀ (k : ℕ) (v : Vec) (rp : ℕ), nonnegV v → v.sum ≤ SPARSITY_MAX * 2 ^ k →
    ∃ r, sparsify rs (k + 1) rp v = some r := by
  intro k
  induction k with
  | zero =>
    intro v rp _ hs
    refine ⟨(v, rp), ?_⟩
    simp only [sparsify]
    rw [if_neg (not_lt.2 (by simpa using hs))]
  | succ k ih =>
    intro v rp hv hs
    by_cases hg : SPARSITY_MAX < v.sum
    · have hhalf := sparsePass_sum_le rs rp v hv
      have h1 : (sparsePass rs rp v).1.sum ≤ SPARSITY_MAX * 2 ^ k := by
        rw [pow_succ] at hs
        linarith
      rcases ih (sparsePass rs rp v).1 (sparsePass rs rp v).2 (sparsePass_nonneg rs rp v) h1
        with ⟨r, hr⟩
      refine ⟨r, ?_⟩
      simp only [sparsify]
      rw [if_pos hg]
      exact hr
    · refine ⟨(v, rp), ?_⟩
      simp only [sparsify]
      rw [if_neg hg]

theorem sparsify_exists_any (rs : RS) (v : Vec) (rp : ℕ) :
    ∃ f r, sparsify rs f rp v = some r := by
  by_cases hg : SPARSITY_MAX < v.sum
  · have hnn := sparsePass_nonneg rs rp v
    rcases pow_unbounded_of_one_lt ((sparsePass rs rp v).1.sum) (by norm_num : (1:ℚ) < 2)
      with ⟨k, hk⟩
    have hb : (sparsePass rs rp v).1.sum ≤ SPARSITY_MAX * 2 ^ k := by
      have h1 : (1:ℚ) ≤ SPARSITY_MAX := by
        norm_num [SPARSITY_MAX, MAX_AMT, RND_EXP_ENTRIES]
      calc (sparsePass rs rp v).1.sum ≤ 2 ^ k := hk.le
        _ = 1 * 2 ^ k := (one_mul _).symm
        _ ≤ SPARSITY_MAX * 2 ^ k :=
          mul_le_mul_of_nonneg_right h1 (by positivity)
    rcases sparsify_exists_nonneg rs k (sparsePass rs rp v).1 (sparsePass rs rp v).2 hnn hb
      with ⟨r, hr⟩
    refine ⟨k + 1 + 1, r, ?_⟩
    simp only [sparsify]
    rw [if_pos hg]
    exact hr
  · refine ⟨1, (v, rp), ?_⟩
    simp only [sparsify]
    rw [if_neg hg]

theorem mutCore_exists (rs : RS) (inst : Vec)
    (H : ∀ p, ∃ k, inst.getD (rs.nats (p + k) % inst.length) 0 ≤ 0) :
    ∀ (pairs : List (ℕ × ℚ)) (pos : RngPos) (rnd : Vec),
    ∃ f r, mutCore rs inst f pairs pos rnd = some r := by
  intro pairs
  induction pairs with
  | nil => intro pos rnd; exact ⟨0, (rnd, pos), rfl⟩
  | cons hd rest ih =>
    rcases hd with ⟨idx, val⟩
    intro pos rnd
    by_cases h1 : MUTATE_RATE < rs.rolls pos.r
    · rcases ih ⟨pos.r + 1, pos.n⟩ rnd with ⟨f, r, hf⟩
      refine ⟨f, r, ?_⟩
      simp only [mutCore]
      rw [if_pos h1]
      exact hf
    · by_cases h2 : rs.rolls pos.r < MUTATE_BIG ∧ 0 < val
      · rcases H pos.n with ⟨k, hk⟩
        rcases blankSearch_exists rs inst k pos.n hk with ⟨f1, ⟨b, np⟩, hb⟩
        rcases ih ⟨pos.r + 1, np⟩ ((rnd.set idx (rnd.getD b 0)).set b (rnd.getD idx 0))
          with ⟨f2, r, hr⟩
        refine ⟨max f1 f2, r, ?_⟩
        simp only [mutCore]
        rw [if_neg h1, if_pos h2,
          blankSearch_mono rs inst (le_max_left f1 f2) pos.n (b, np) hb]
        simp only []
        exact mutCore_mono rs inst (le_max_right f1 f2) rest ⟨pos.r + 1, np⟩ _ r hr
      · by_cases h3 : val ≤ 0
        · rcases ih ⟨pos.r + 1, pos.n + 1⟩
            (rnd.set idx ((if rs.rolls pos.r < MUTATE_BIG then BIG_JUMPS else REG_JUMPS).getD
              (rs.nats pos.n % (if rs.rolls pos.r < MUTATE_BIG then BIG_JUMPS
                else REG_JUMPS).length) 0)) with ⟨f, r, hf⟩
          refine ⟨f, r, ?_⟩
          simp only [mutCore]
          rw [if_neg h1, if_neg h2, if_pos h3]
          exact hf
        · rcases ih ⟨pos.r + 1, pos.n + 1 + 1⟩
            (rnd.set idx (clipQ (val + SIGNS.getD (rs.nats (pos.n + 1) % SIGNS.length) 0 *
              (if rs.rolls pos.r < MUTATE_BIG then BIG_JUMPS else REG_JUMPS).getD
                (rs.nats pos.n % (if rs.rolls pos.r < MUTATE_BIG then BIG_JUMPS
                  else REG_JUMPS).length) 0) 0 MAX_AMT)) with ⟨f, r, hf⟩
          refine ⟨f, r, ?_⟩
          simp only [mutCore]
          rw [if_neg h1, if_neg h2, if_neg h3]
          exact hf

/-- C4 (amended).  mutate terminates on every input vector and every
stream in which, from every position, the index draws eventually hit an
entry of the input that is not positive; the swap search then always
finds a blank index and some fuel returns a value. -/
theorem mutate_terminates_of_blank_found (rs : RS) (pos : RngPos) (inst : Vec)
    (H : ∀ p, ∃ k, inst.getD (rs.nats (p + k) % inst.length) 0 ≤ 0) :
    ∃ fuel v pos', mutate rs fuel pos inst = some (v, pos') := by
  rcases mutCore_exists rs inst H inst.enum pos inst with ⟨f1, ⟨rnd, pos1⟩, h1⟩
  rcases sparsify_exists_any rs rnd pos1.r with ⟨f2, ⟨w, rp⟩, h2⟩
  refine ⟨max f1 f2, w, ⟨rp, pos1.n⟩, ?_⟩
  simp only [mutate]
  rw [mutCore_mono rs inst (le_max_left f1 f2) inst.enum pos inst (rnd, pos1) h1]
  simp only []
  rw [sparsify_mono rs (le_max_right f1 f2) pos1.r rnd (w, rp) h2]

/-- Witness for C4 at the vector [0, 1] with the zero streams. -/
theorem mutate_terminates_of_blank_found_witness :
    (∀ p, ∃ k, ([0, 1] : Vec).getD (rsZero.nats (p + k) % ([0, 1] : Vec).length) 0 ≤ 0) ∧
    ∃ fuel v pos', mutate rsZero fuel ⟨0, 0⟩ [0, 1] = some (v, pos') := by
  have hH : ∀ p, ∃ k, ([0, 1] : Vec).getD (rsZero.nats (p + k) % ([0, 1] : Vec).length) 0 ≤ 0 :=
    fun p => ⟨0, by simp [rsZero]⟩
  exact ⟨hH, mutate_terminates_of_blank_found rsZero ⟨0, 0⟩ [0, 1] hH⟩

theorem blankSearch_allpos (fuel : ℕ) : ∀ np, blankSearch rsBig [1] np fuel = none := by
  induction fuel with
  | zero => intro np; rfl
  | succ fuel ih =>
    intro np
    simp only [blankSearch]
    rw [if_pos (by norm_num [rsBig])]
    exact ih _

/-- C4 counterexample.  On the all-positive vector [1], one roll of 0.01
enters the swap branch, the blank search can never find a non-positive
entry, and no amount of fuel makes mutate return: the loop while
inst[blank_idx] > 0.0 runs forever, so mutate is not total. -/
theorem mutate_diverges_on_all_positive :
    ¬ ∃ fuel v pos', mutate rsBig fuel ⟨0, 0⟩ [1] = some (v, pos') := by
  rintro ⟨fuel, v, pos', h⟩
  have hcore : mutCore rsBig [1] fuel [((0 : ℕ), (1 : ℚ))] ⟨0, 0⟩ [1] = none := by
    rw [mutCore_cons]
    rw [if_neg (by norm_num [rsBig, MUTATE_RATE]),
      if_pos ⟨by norm_num [rsBig, MUTATE_BIG, MUTATE_RATE], by norm_num⟩]
    rw [blankSearch_allpos fuel _]
  simp [mutate, hcore] at h

/-! ## crossover, dedup and the easy structural claims -/

theorem crossGo_length (rs : RS) : ∀ (l : List (ℚ × ℚ)) (rp : ℕ),
    (crossGo rs l rp).1.length = l.length := by
  intro l
  induction l with
  | nil => intro rp; rfl
  | cons p rest ih =>
    intro rp
    simp only [crossGo]
    simp [ih]

theorem crossGo_mem (rs : RS) : ∀ (l : List (ℚ × ℚ)) (rp : ℕ) (x : ℚ),
    x ∈ (crossGo rs l rp).1 → ∃ p ∈ l, x = p.1 ∨ x = p.2 := by
  intro l
  induction l with
  | nil => intro rp x hx; simp [crossGo] at hx
  | cons p rest ih =>
    intro rp x hx
    simp only [crossGo, List.mem_cons] at hx
    rcases hx with hx | hx
    · refine ⟨p, by simp, ?_⟩
      split_ifs at hx
      · exact Or.inl hx
      · exact Or.inr hx
    · rcases ih (rp + 1) x hx with ⟨q, hq, hor⟩
      exact ⟨q, by simp [hq], hor⟩

/-- C9 (amended).  The asserts of score abort exactly when a vector
length disagrees with the engine dimensions (never truncating or
padding), but crossover does not fail on parents of unequal length: the
zip silently truncates the result to the shorter parent. -/
theorem score_guard_and_crossover_min_length (E : Engine) (inst nutr : Vec)
    (rs : RS) (rp : ℕ) (a b : Vec) :
    ((score E inst nutr).isSome = true ↔
      (inst.length = E.food_count ∧ nutr.length = E.micros.length ∧
       E.RDA.length = E.UL.length ∧ E.UL.length = nutr.length)) ∧
    (crossover rs rp a b).1.length = min a.length b.length := by
  constructor
  · simp only [score]
    split_ifs with h
    · simpa using h
    · simpa using h
  · rw [crossover, crossGo_length, List.length_zip]

/-- C9 counterexample.  crossover on parents of length 2 and 1 does not
fail fatally: it returns the length-1 vector [1], silently truncating
the longer parent. -/
theorem crossover_truncates_silently :
    (crossover rsZero 0 [1, 2] [3]).1 = [1] ∧
    (crossover rsZero 0 [1, 2] [3]).1.length ≠ ([1, 2] : Vec).length := by
  constructor
  · with_unfolding_all decide
  · with_unfolding_all decide

/-- C3 counterexample.  From a population whose single member [4] is
within the claimed bound [0, MAX_AMT], the merge of four tournament
winners is [16], and its mutated copy is [8]: the merge-then-mutate
construction returns an entry 8 that exceeds MAX_AMT = 5. -/
theorem merge_mutate_exceeds_max_amt :
    boundedV MAX_AMT [(4 : ℚ)] ∧
    (mergeVec rsMerge [[4]] 0).1 = [16] ∧
    mergeMutate rsMerge 2 [[4]] ⟨0, 0⟩ = some ([8], ⟨2, 8⟩) ∧
    ¬ ((8 : ℚ) ≤ MAX_AMT) := by
  refine ⟨?_, ?_, ?_, ?_⟩ <;> with_unfolding_all decide

theorem dedup_aux_nodup : ∀ (l acc : List Vec), acc.Nodup →
    (l.foldl (fun acc v => if v ∈ acc then acc else acc ++ [v]) acc).Nodup := by
  intro l
  induction l with
  | nil => intro acc h; exact h
  | cons x xs ih =>
    intro acc h
    simp only [List.foldl_cons]
    split_ifs with hx
    · exact ih acc h
    · refine ih _ ((List.nodup_append).2 ⟨h, List.nodup_singleton x, ?_⟩)
      intro a ha hax
      rw [List.mem_singleton] at hax
      exact hx (hax ▸ ha)

theorem dedup_aux_subset : ∀ (l acc : List Vec) (x : Vec),
    x ∈ l.foldl (fun acc v => if v ∈ acc then acc else acc ++ [v]) acc →
    x ∈ acc ∨ x ∈ l := by
  intro l
  induction l with
  | nil => intro acc x hx; exact Or.inl hx
  | cons y ys ih =>
    intro acc x hx
    simp only [List.foldl_cons] at hx
    rcases ih _ x hx with h | h
    · split_ifs at h with hy
      · exact Or.inl h
      · rcases List.mem_append.1 h with h | h
        · exact Or.inl h
        · rw [List.mem_singleton] at h
          exact Or.inr (by simp [h])
    · exact Or.inr (by simp [h])

theorem dedupKeepFirst_nodup (l : List Vec) : (dedupKeepFirst l).Nodup :=
  dedup_aux_nodup l [] List.nodup_nil

theorem dedupKeepFirst_subset {l : List Vec} {x : Vec} (h : x ∈ dedupKeepFirst l) :
    x ∈ l := by
  rcases dedup_aux_subset l [] x h with h1 | h1
  · simp at h1
  · exact h1

/-- C6.  After every completed generation step, the installed population
holds no two element-wise equal members: the seen-set of add_to_gen
drops every duplicate before set_pop runs. -/
theorem generation_population_nodup (E : Engine) (rs : RS) (fuel : ℕ)
    (pos : RngPos) (st : EState) :
    (generation E rs fuel pos st).elim True (fun r => r.1.population.Nodup) := by
  simp only [generation]
  rcases hg : genOffers E rs fuel pos st with _ | ⟨offs, pos1⟩
  · exact trivial
  · simpa [set_pop] using dedupKeepFirst_nodup offs

/-! ## Bounds of the candidate pool -/

theorem nonnegV_addV {a b : Vec} (ha : nonnegV a) (hb : nonnegV b) :
    nonnegV (addV a b) := by
  induction a generalizing b with
  | nil => intro x hx; simp [addV] at hx
  | cons y ys ih =>
    cases b with
    | nil => intro x hx; simp [addV] at hx
    | cons z zs =>
      intro x hx
      simp only [addV, List.zipWith_cons_cons, List.mem_cons] at hx
      rcases hx with h | h
      · have h1 : (0:ℚ) ≤ y := ha y (by simp)
        have h2 : (0:ℚ) ≤ z := hb z (by simp)
        rw [h]
        exact add_nonneg h1 h2
      · have hys : nonnegV ys := fun t ht => ha t (List.mem_cons_of_mem y ht)
        have hzs : nonnegV zs := fun t ht => hb t (List.mem_cons_of_mem z ht)
        exact ih hys hzs x h

theorem boundedV_nonneg {c : ℚ} {v : Vec} (h : boundedV c v) : nonnegV v :=
  fun x hx => (h x hx).1

theorem boundedV_set0 {c : ℚ} {v : Vec} (hc : 0 ≤ c) (h : boundedV c v) (i : ℕ) :
    boundedV c (v.set i 0) := by
  intro x hx
  rcases List.mem_or_eq_of_mem_set hx with h1 | h1
  · exact h x h1
  · rw [h1]
    exact ⟨le_refl 0, hc⟩

theorem sparsity_max_nonneg : (0 : ℚ) ≤ SPARSITY_MAX := by
  norm_num [SPARSITY_MAX, MAX_AMT, RND_EXP_ENTRIES]

theorem getD_mem_pop {P : List Vec} {i : ℕ} {d : Vec} (h : i < P.length) :
    P.getD i d ∈ P := by
  rw [List.getD_eq_getElem P d h]
  exact List.getElem_mem h

theorem nonnegV_pop_getD {pop : List Vec} (h : ∀ v ∈ pop, nonnegV v) (i : ℕ) :
    nonnegV (pop.getD i []) := by
  by_cases hi : i < pop.length
  · exact h _ (getD_mem_pop hi)
  · rw [List.getD_eq_default _ _ (le_of_not_lt hi)]
    intro x hx
    simp at hx

theorem mergeAcc_nonneg (rs : RS) (pop : List Vec) (hpop : ∀ v ∈ pop, nonnegV v) :
    ∀ (k : ℕ) (acc : Vec) (np : ℕ), nonnegV acc →
    nonnegV (mergeAcc rs pop k acc np).1 := by
  intro k
  induction k with
  | zero => intro acc np h; exact h
  | succ k ih =>
    intro acc np h
    simp only [mergeAcc]
    exact ih _ _ (nonnegV_addV h (nonnegV_pop_getD hpop _))

theorem mergeVec_nonneg (rs : RS) (pop : List Vec) (hpop : ∀ v ∈ pop, nonnegV v)
    (np : ℕ) : nonnegV (mergeVec rs pop np).1 := by
  simp only [mergeVec]
  exact mergeAcc_nonneg rs pop hpop _ _ _ (nonnegV_pop_getD hpop _)

theorem AMT_CHOICES_bounded : boundedV SPARSITY_MAX AMT_CHOICES := by
  with_unfolding_all decide

theorem assignAmounts_length (rs : RS) : ∀ (idxs : List ℕ) (inst : Vec) (np : ℕ),
    (assignAmounts rs idxs inst np).1.length = inst.length := by
  intro idxs
  induction idxs with
  | nil => intro inst np; rfl
  | cons i rest ih =>
    intro inst np
    simp only [assignAmounts]
    rw [ih, List.length_set]

theorem assignAmounts_mem (rs : RS) : ∀ (idxs : List ℕ) (inst : Vec) (np : ℕ),
    (∀ x ∈ inst, x = 0 ∨ x ∈ AMT_CHOICES) →
    ∀ x ∈ (assignAmounts rs idxs inst np).1, x = 0 ∨ x ∈ AMT_CHOICES := by
  intro idxs
  induction idxs with
  | nil => intro inst np h; exact h
  | cons i rest ih =>
    intro inst np h
    simp only [assignAmounts]
    refine ih _ _ ?_
    intro x hx
    rcases List.mem_or_eq_of_mem_set hx with h1 | h1
    · exact h x h1
    · right
      rw [h1]
      exact getD_mem (Nat.mod_lt _ (by norm_num [AMT_CHOICES]))

theorem rand_inst_spec (rs : RS) (F fuel : ℕ) (pos : RngPos) (v : Vec) (pos' : RngPos)
    (h : rand_inst rs F fuel pos = some (v, pos')) :
    v.length = F ∧ ∀ x ∈ v, x = 0 ∨ x ∈ AMT_CHOICES := by
  simp only [rand_inst] at h
  by_cases hF : F < RND_EXP_ENTRIES
  · rw [if_pos hF] at h
    simp at h
  · rw [if_neg hF] at h
    rcases hc : collectIdxs rs F
        (if rs.nats pos.n % (F + 1) < 1 then RND_EXP_ENTRIES else rs.nats pos.n % (F + 1))
        fuel [] (pos.n + 1) with _ | ⟨idxs, np⟩
    · rw [hc] at h
      simp at h
    · rw [hc] at h
      simp only [] at h
      cases h
      constructor
      · rw [assignAmounts_length]
        simp [zeroV]
      · refine assignAmounts_mem rs idxs (zeroV F) np ?_
        intro x hx
        exact Or.inl (List.eq_of_mem_replicate hx)

theorem rand_inst_bounded (rs : RS) (F fuel : ℕ) (pos : RngPos) (v : Vec)
    (pos' : RngPos) (h : rand_inst rs F fuel pos = some (v, pos')) :
    boundedV SPARSITY_MAX v := by
  intro x hx
  rcases (rand_inst_spec rs F fuel pos v pos' h).2 x hx with h1 | h1
  · rw [h1]
    exact ⟨le_refl 0, sparsity_max_nonneg⟩
  · exact AMT_CHOICES_bounded x h1

theorem oneOffs_bounded (rs : RS) (fuel : ℕ) (inst : Vec)
    (hinst : boundedV SPARSITY_MAX inst) :
    ∀ (pairs : List (ℕ × ℚ)) (pos : RngPos) (offs : List Vec) (pos' : RngPos),
    oneOffs rs fuel inst pairs pos = some (offs, pos') →
    ∀ v ∈ offs, boundedV SPARSITY_MAX v := by
  intro pairs
  induction pairs with
  | nil =>
    intro pos offs pos' h v hv
    simp only [oneOffs] at h
    cases h
    simp at hv
  | cons iv rest ih =>
    rcases iv with ⟨idx, val⟩
    intro pos offs pos' h v hv
    simp only [oneOffs] at h
    split_ifs at h with hval
    · rcases hm : mutate rs fuel pos (inst.set idx 0) with _ | ⟨m, pos1⟩
      · rw [hm] at h
        simp at h
      · rw [hm] at h
        simp only [] at h
        rcases ho : oneOffs rs fuel inst rest pos1 with _ | ⟨tl, pos2⟩
        · rw [ho] at h
          simp at h
        · rw [ho] at h
          simp only [] at h
          cases h
          rcases List.mem_cons.1 hv with rfl | hv1
          · exact boundedV_set0 sparsity_max_nonneg hinst idx
          · rcases List.mem_cons.1 hv1 with rfl | hv2
            · exact mutate_bounded rs fuel pos _ v pos1 hm
                (boundedV_nonneg (boundedV_set0 sparsity_max_nonneg hinst idx))
            · exact ih _ _ _ ho v hv2
    · exact ih pos offs pos' h v hv

theorem eliteOffers_bounded (rs : RS) (fuel : ℕ) :
    ∀ (insts : List Vec), (∀ i ∈ insts, boundedV SPARSITY_MAX i) →
    ∀ (pos : RngPos) (offs : List Vec) (pos' : RngPos),
    eliteOffers rs fuel insts pos = some (offs, pos') →
    ∀ v ∈ offs, boundedV SPARSITY_MAX v := by
  intro insts
  induction insts with
  | nil =>
    intro _ pos offs pos' h v hv
    simp only [eliteOffers] at h
    cases h
    simp at hv
  | cons inst rest ih =>
    intro hb pos offs pos' h v hv
    have hinst : boundedV SPARSITY_MAX inst := hb inst (by simp)
    simp only [eliteOffers] at h
    rcases hm : mutate rs fuel pos inst with _ | ⟨m, pos1⟩
    · rw [hm] at h
      simp at h
    · rw [hm] at h
      simp only [] at h
      rcases ho : oneOffs rs fuel inst inst.enum pos1 with _ | ⟨offs1, pos2⟩
      · rw [ho] at h
        simp at h
      · rw [ho] at h
        simp only [] at h
        rcases he : eliteOffers rs fuel rest pos2 with _ | ⟨tl, pos3⟩
        · rw [he] at h
          simp at h
        · rw [he] at h
          simp only [] at h
          cases h
          rcases List.mem_cons.1 hv with rfl | hv1
          · exact hinst
          · rcases List.mem_cons.1 hv1 with rfl | hv2
            · exact mutate_bounded rs fuel pos inst v pos1 hm (boundedV_nonneg hinst)
            · rcases List.mem_append.1 hv2 with hv3 | hv3
              · exact oneOffs_bounded rs fuel inst hinst inst.enum pos1 offs1 pos2 ho v hv3
              · exact ih (fun i hi => hb i (by simp [hi])) _ _ _ he v hv3

theorem mergeMutate_bounded (rs : RS) (fuel : ℕ) (pop : List Vec)
    (hpop : ∀ v ∈ pop, nonnegV v) (pos : RngPos) (v : Vec) (pos' : RngPos)
    (h : mergeMutate rs fuel pop pos = some (v, pos')) :
    boundedV SPARSITY_MAX v := by
  simp only [mergeMutate] at h
  exact mutate_bounded rs fuel _ _ v pos' h (mergeVec_nonneg rs pop hpop pos.n)

theorem crossMutate_bounded (rs : RS) (fuel : ℕ) (pop : List Vec)
    (hpop : ∀ v ∈ pop, nonnegV v) (pos : RngPos) (v : Vec) (pos' : RngPos)
    (h : crossMutate rs fuel pop pos = some (v, pos')) :
    boundedV SPARSITY_MAX v := by
  simp only [crossMutate] at h
  refine mutate_bounded rs fuel _ _ v pos' h ?_
  intro x hx
  rcases crossGo_mem rs _ _ x hx with ⟨p, hp, hor⟩
  have h1 := List.of_mem_zip hp
  rcases hor with rfl | rfl
  · exact nonnegV_pop_getD hpop _ p.1 h1.1
  · exact nonnegV_pop_getD hpop _ p.2 h1.2

theorem fillOffers_bounded (rs : RS) (fuel F : ℕ) (pop : List Vec)
    (hpop : ∀ v ∈ pop, boundedV SPARSITY_MAX v) :
    ∀ (k : ℕ) (pos : RngPos) (offs : List Vec) (pos' : RngPos),
    fillOffers rs fuel F pop k pos = some (offs, pos') →
    ∀ v ∈ offs, boundedV SPARSITY_MAX v := by
  have hnn : ∀ v ∈ pop, nonnegV v := fun v hv => boundedV_nonneg (hpop v hv)
  intro k
  induction k with
  | zero =>
    intro pos offs pos' h v hv
    simp only [fillOffers] at h
    cases h
    simp at hv
  | succ k ih =>
    intro pos offs pos' h v hv
    simp only [fillOffers] at h
    rcases hr : rand_inst rs F fuel pos with _ | ⟨r, pos1⟩
    · rw [hr] at h
      simp at h
    · rw [hr] at h
      simp only [] at h
      rcases hm : mergeMutate rs fuel pop pos1 with _ | ⟨mm, pos2⟩
      · rw [hm] at h
        simp at h
      · rw [hm] at h
        simp only [] at h
        rcases hcr : crossMutate rs fuel pop pos2 with _ | ⟨cm, pos3⟩
        · rw [hcr] at h
          simp at h
        · rw [hcr] at h
          simp only [] at h
          rcases hf : fillOffers rs fuel F pop k pos3 with _ | ⟨tl, pos4⟩
          · rw [hf] at h
            simp at h
          · rw [hf] at h
            simp only [] at h
            cases h
            rcases List.mem_cons.1 hv with rfl | hv1
            · exact rand_inst_bounded rs F fuel pos v pos1 hr
            · rcases List.mem_cons.1 hv1 with rfl | hv2
              · exact mergeMutate_bounded rs fuel pop hnn pos1 v pos2 hm
              · rcases List.mem_cons.1 hv2 with rfl | hv3
                · exact crossMutate_bounded rs fuel pop hnn pos2 v pos3 hcr
                · exact ih _ _ _ hf v hv3

theorem topElites_mem (E : Engine) (st : EState) {v : Vec}
    (h : v ∈ topElites E st) : v ∈ st.population := by
  have h1 : v ∈ sortedInsts E st := List.mem_of_mem_take h
  simp only [sortedInsts, List.mem_map] at h1
  rcases h1 with ⟨p, hp, rfl⟩
  have h2 : p ∈ st.population.zip st.popnutrition :=
    (List.mergeSort_perm (st.population.zip st.popnutrition)
      (fun a b => decide (scoreKey E a ≤ scoreKey E b))).mem_iff.1
      (by simpa [sortPop] using hp)
  exact (List.of_mem_zip h2).1

/-- C3 (amended).  The population invariant the generation step
preserves is the bound [0, SPARSITY_MAX] = [0, 11.25], not
[0, MAX_AMT]: every candidate the step installs (elites, their one-off
variants, mutated copies, random instances, merged and crossed
children) has all entries in [0, SPARSITY_MAX], the merge-then-mutate
construction being the operator that can exceed MAX_AMT. -/
theorem generation_preserves_sparsity_bound (E : Engine) (rs : RS) (fuel : ℕ)
    (pos : RngPos) (st : EState) (hst : popBounded st.population) :
    (generation E rs fuel pos st).elim True (fun r => popBounded r.1.population) := by
  simp only [generation]
  rcases hg : genOffers E rs fuel pos st with _ | ⟨offs, pos1⟩
  · exact trivial
  · have hoffs : ∀ v ∈ offs, boundedV SPARSITY_MAX v := by
      simp only [genOffers] at hg
      split_ifs at hg with hcond
      · rcases he : eliteOffers rs fuel (topElites E st) pos with _ | ⟨eo, p1⟩
        · rw [he] at hg
          simp at hg
        · rw [he] at hg
          simp only [] at hg
          rcases hf : fillOffers rs fuel E.food_count st.population POP_SIZE p1
            with _ | ⟨fo, p2⟩
          · rw [hf] at hg
            simp at hg
          · rw [hf] at hg
            simp only [] at hg
            cases hg
            intro v hv
            rcases List.mem_append.1 hv with hv1 | hv1
            · exact eliteOffers_bounded rs fuel (topElites E st)
                (fun i hi => hst i (topElites_mem E st hi)) pos eo p1 he v hv1
            · exact fillOffers_bounded rs fuel E.food_count st.population hst
                POP_SIZE p1 fo _ hf v hv1
    have hsub : ∀ v ∈ dedupKeepFirst offs, boundedV SPARSITY_MAX v :=
      fun v hv => hoffs v (dedupKeepFirst_subset hv)
    simpa [set_pop, popBounded] using hsub

/-! ### A concrete four-food run of the generation step

With the constant streams rsOne (every roll 0, every nat draw 1) and the
four-food catalog exEngine4, every random-instance draw, merge-mutate
and cross-mutate step succeeds at fuel 1, so a full generation step
returns a successor state.  The step equations below were computed by
hand from the definitions. -/

theorem collectIdxs_done (rs : RS) (F target fuel : ℕ) (acc : List ℕ) (np : ℕ)
    (h : target ≤ acc.length) : collectIdxs rs F target fuel acc np = some (acc, np) := by
  cases fuel <;> simp [collectIdxs, h]

theorem rand_inst_rsOne4 (f r n : ℕ) :
    rand_inst rsOne 4 (f + 1) ⟨r, n⟩ = some ([0, 1, 0, 0], ⟨r, n + 3⟩) := by
  simp [rand_inst, rsOne, collectIdxs, collectIdxs_done, assignAmounts, zeroV,
    AMT_CHOICES, RND_EXP_ENTRIES]

theorem rand_inst_rsOne4_one (r n : ℕ) :
    rand_inst rsOne 4 1 ⟨r, n⟩ = some ([0, 1, 0, 0], ⟨r, n + 3⟩) :=
  rand_inst_rsOne4 0 r n

theorem randList_rsOne4 : ∀ (k f r n : ℕ),
    randList rsOne 4 (f + 1) k ⟨r, n⟩ =
      some (List.replicate k [0, 1, 0, 0], ⟨r, n + 3 * k⟩) := by
  intro k
  induction k with
  | zero => intro f r n; simp [randList]
  | succ k ih =>
    intro f r n
    have he : n + 3 + 3 * k = n + 3 * (k + 1) := by ring
    simp only [randList, rand_inst_rsOne4, ih, List.replicate_succ, he]

theorem mergeMutate_rsOne4 (r n : ℕ) :
    mergeMutate rsOne 1 [[1, 0, 0, 0]] ⟨r, n⟩ =
      some ([0, 7/4, 7/4, 7/4], ⟨r + 4, n + 12⟩) := by
  norm_num [mergeMutate, mergeVec, mergeAcc, winner, rsOne, addV, mutate, mutCore,
    blankSearch, sparsify, sparsePass, MUTATE_RATE, MUTATE_BIG, MAX_AMT, SPARSITY_MAX,
    BIG_JUMPS, REG_JUMPS, SIGNS, clipQ, MERGE_SIZE, RND_EXP_ENTRIES, List.enum,
    List.enumFrom]

theorem crossMutate_rsOne4 (r n : ℕ) :
    crossMutate rsOne 1 [[1, 0, 0, 0]] ⟨r, n⟩ =
      some ([0, 7/4, 7/4, 7/4], ⟨r + 8, n + 8⟩) := by
  norm_num [crossMutate, winner, rsOne, crossover, crossGo, mutate, mutCore,
    blankSearch, sparsify, sparsePass, MUTATE_RATE, MUTATE_BIG, MAX_AMT, SPARSITY_MAX,
    BIG_JUMPS, REG_JUMPS, SIGNS, clipQ, RND_EXP_ENTRIES, List.enum, List.enumFrom]

theorem fillOffers_rsOne4 : ∀ (k r n : ℕ),
    (fillOffers rsOne 1 4 [[1, 0, 0, 0]] k ⟨r, n⟩).isSome = true := by
  intro k
  induction k with
  | zero => intro r n; rfl
  | succ k ih =>
    intro r n
    obtain ⟨⟨tl, p4⟩, hf⟩ := Option.isSome_iff_exists.1 (ih (r + 4 + 8) (n + 3 + 12 + 8))
    simp only [fillOffers, rand_inst_rsOne4_one, mergeMutate_rsOne4, crossMutate_rsOne4, hf,
      Option.isSome_some]

theorem sortPop_singleton (E : Engine) (p : Vec × Vec) : sortPop E [p] = [p] :=
  List.perm_singleton.1
    (List.mergeSort_perm [p] (fun a b => decide (scoreKey E a ≤ scoreKey E b)))

theorem topElites_ex4 :
    topElites exEngine4 ⟨[[1, 0, 0, 0]], [[900]], [], []⟩ = [[1, 0, 0, 0]] := by
  simp [topElites, sortedInsts, sortPop_singleton, IMMORTALS]

set_option maxRecDepth 4000 in
theorem eliteOffers_ex4 :
    eliteOffers rsOne 1 [[1, 0, 0, 0]] ⟨0, 0⟩ =
      some ([[1, 0, 0, 0], [0, 7/4, 7/4, 7/4], [0, 0, 0, 0], [7/4, 7/4, 7/4, 7/4]],
            ⟨8, 8⟩) := by
  with_unfolding_all decide

set_option maxRecDepth 4000 in
theorem genOffers_ex4_isSome :
    (genOffers exEngine4 rsOne 1 ⟨0, 0⟩ ⟨[[1, 0, 0, 0]], [[900]], [], []⟩).isSome = true := by
  obtain ⟨⟨fo, p4⟩, hf⟩ := Option.isSome_iff_exists.1 (fillOffers_rsOne4 POP_SIZE 8 8)
  simp only [genOffers]
  rw [topElites_ex4]
  split_ifs with hc
  · rw [eliteOffers_ex4]
    simp only []
    rw [show exEngine4.food_count = 4 from rfl, hf]
    rfl
  · exact absurd (by with_unfolding_all decide) hc

theorem generation_ex4_isSome :
    (generation exEngine4 rsOne 1 ⟨0, 0⟩ ⟨[[1, 0, 0, 0]], [[900]], [], []⟩).isSome = true := by
  obtain ⟨⟨offs, p⟩, h⟩ := Option.isSome_iff_exists.1 genOffers_ex4_isSome
  simp only [generation, h, Option.isSome_some]

/-- Witness for C3: a bounded four-food state on which the generation
step genuinely returns a successor state, whose population is again
bounded. -/
theorem generation_preserves_sparsity_bound_witness :
    (popBounded [[1, 0, 0, 0]] ∧
     (generation exEngine4 rsOne 1 ⟨0, 0⟩
        ⟨[[1, 0, 0, 0]], [[900]], [], []⟩).isSome = true) ∧
    (generation exEngine4 rsOne 1 ⟨0, 0⟩ ⟨[[1, 0, 0, 0]], [[900]], [], []⟩).elim True
      (fun r => popBounded r.1.population) :=
  ⟨⟨by with_unfolding_all decide, generation_ex4_isSome⟩,
   generation_preserves_sparsity_bound exEngine4 rsOne 1 ⟨0, 0⟩
     ⟨[[1, 0, 0, 0]], [[900]], [], []⟩ (by with_unfolding_all decide)⟩

/-! ## The elitism obligations -/

theorem offeredWithMutant_mono {rs : RS} {fuel : ℕ} {offs offs' : List Vec}
    (hsub : ∀ x ∈ offs, x ∈ offs') {v : Vec}
    (h : offeredWithMutant rs fuel offs v) : offeredWithMutant rs fuel offs' v := by
  rcases h with ⟨h1, q, m, q', hm, h2⟩
  exact ⟨hsub v h1, q, m, q', hm, hsub m h2⟩

theorem offeredElite_mono {rs : RS} {fuel : ℕ} {offs offs' : List Vec}
    (hsub : ∀ x ∈ offs, x ∈ offs') {v : Vec}
    (h : offeredElite rs fuel offs v) : offeredElite rs fuel offs' v :=
  ⟨offeredWithMutant_mono hsub h.1,
   fun iv hiv hp => offeredWithMutant_mono hsub (h.2 iv hiv hp)⟩

theorem oneOffs_spec (rs : RS) (fuel : ℕ) (inst : Vec) :
    ∀ (pairs : List (ℕ × ℚ)) (pos : RngPos) (offs : List Vec) (pos' : RngPos),
    oneOffs rs fuel inst pairs pos = some (offs, pos') →
    ∀ iv ∈ pairs, 0 < iv.2 → offeredWithMutant rs fuel offs (inst.set iv.1 0) := by
  intro pairs
  induction pairs with
  | nil =>
    intro pos offs pos' h iv hiv
    simp at hiv
  | cons jv rest ih =>
    rcases jv with ⟨idx, val⟩
    intro pos offs pos' h iv hiv hp
    simp only [oneOffs] at h
    split_ifs at h with hval
    · rcases hm : mutate rs fuel pos (inst.set idx 0) with _ | ⟨m, pos1⟩
      · rw [hm] at h
        simp at h
      · rw [hm] at h
        simp only [] at h
        rcases ho : oneOffs rs fuel inst rest pos1 with _ | ⟨tl, pos2⟩
        · rw [ho] at h
          simp at h
        · rw [ho] at h
          simp only [] at h
          cases h
          rcases List.mem_cons.1 hiv with rfl | hiv1
          · exact ⟨by simp, pos, m, pos1, hm, by simp⟩
          · refine offeredWithMutant_mono ?_ (ih pos1 tl _ ho iv hiv1 hp)
            intro x hx
            exact List.mem_cons_of_mem _ (List.mem_cons_of_mem _ hx)
    · rcases List.mem_cons.1 hiv with rfl | hiv1
      · exact absurd hp hval
      · exact ih pos offs pos' h iv hiv1 hp

theorem eliteOffers_spec (rs : RS) (fuel : ℕ) :
    ∀ (insts : List Vec) (pos : RngPos) (offs : List Vec) (pos' : RngPos),
    eliteOffers rs fuel insts pos = some (offs, pos') →
    elitesOffered rs fuel insts offs := by
  intro insts
  induction insts with
  | nil =>
    intro pos offs pos' h inst hinst
    simp at hinst
  | cons inst rest ih =>
    intro pos offs pos' h j hj
    simp only [eliteOffers] at h
    rcases hm : mutate rs fuel pos inst with _ | ⟨m, pos1⟩
    · rw [hm] at h
      simp at h
    · rw [hm] at h
      simp only [] at h
      rcases ho : oneOffs rs fuel inst inst.enum pos1 with _ | ⟨offs1, pos2⟩
      · rw [ho] at h
        simp at h
      · rw [ho] at h
        simp only [] at h
        rcases he : eliteOffers rs fuel rest pos2 with _ | ⟨tl, pos3⟩
        · rw [he] at h
          simp at h
        · rw [he] at h
          simp only [] at h
          cases h
          rcases List.mem_cons.1 hj with rfl | hj1
          · constructor
            · exact ⟨by simp, pos, m, pos1, hm, by simp⟩
            · intro iv hiv hp
              refine offeredWithMutant_mono ?_ (oneOffs_spec rs fuel j j.enum pos1 offs1 _ ho iv hiv hp)
              intro x hx
              exact List.mem_cons_of_mem _ (List.mem_cons_of_mem _
                (List.mem_append_left _ hx))
          · refine offeredElite_mono ?_ (ih pos2 tl _ he j hj1)
            intro x hx
            exact List.mem_cons_of_mem _ (List.mem_cons_of_mem _
              (List.mem_append_right _ hx))

/-- C7.  In every generation step, each of the top IMMORTALS members of
the score-sorted prior generation is offered verbatim to the candidate
pool before deduplication, together with a mutated copy and, for every
positive entry, the one-off variant with that entry zeroed plus a
mutated copy of that variant. -/
theorem elites_offered_verbatim (E : Engine) (rs : RS) (fuel : ℕ) (pos : RngPos)
    (st : EState) :
    (genOffers E rs fuel pos st).elim True
      (fun r => elitesOffered rs fuel (topElites E st) r.1) := by
  rcases hg : genOffers E rs fuel pos st with _ | ⟨offs, pos1⟩
  · exact trivial
  · simp only [Option.elim]
    simp only [genOffers] at hg
    split_ifs at hg with hcond
    · rcases he : eliteOffers rs fuel (topElites E st) pos with _ | ⟨eo, p1⟩
      · rw [he] at hg
        simp at hg
      · rw [he] at hg
        simp only [] at hg
        rcases hf : fillOffers rs fuel E.food_count st.population POP_SIZE p1
          with _ | ⟨fo, p2⟩
        · rw [hf] at hg
          simp at hg
        · rw [hf] at hg
          simp only [] at hg
          cases hg
          intro inst hinst
          refine offeredElite_mono ?_ (eliteOffers_spec rs fuel (topElites E st) pos eo _ he inst hinst)
          intro x hx
          exact List.mem_append_left _ hx

/-! ## Engine construction -/

theorem oneHotList_length (F : ℕ) : (oneHotList F).length = F := by
  simp [oneHotList]

theorem randList_spec (rs : RS) (F fuel : ℕ) :
    ∀ (k : ℕ) (pos : RngPos) (l : List Vec) (pos' : RngPos),
    randList rs F fuel k pos = some (l, pos') →
    l.length = k ∧ ∀ v ∈ l, v.length = F ∧ ∀ x ∈ v, x = 0 ∨ x ∈ AMT_CHOICES := by
  intro k
  induction k with
  | zero =>
    intro pos l pos' h
    simp only [randList] at h
    cases h
    exact ⟨rfl, by simp⟩
  | succ k ih =>
    intro pos l pos' h
    simp only [randList] at h
    rcases hr : rand_inst rs F fuel pos with _ | ⟨v, pos1⟩
    · rw [hr] at h
      simp at h
    · rw [hr] at h
      simp only [] at h
      rcases ht : randList rs F fuel k pos1 with _ | ⟨tl, pos2⟩
      · rw [ht] at h
        simp at h
      · rw [ht] at h
        simp only [] at h
        cases h
        rcases ih pos1 tl _ ht with ⟨h1, h2⟩
        refine ⟨by simp [h1], ?_⟩
        intro w hw
        rcases List.mem_cons.1 hw with rfl | hw1
        · exact rand_inst_spec rs F fuel pos w pos1 hr
        · exact h2 w hw1

/-- C10.  A successfully constructed engine state holds exactly the F
one-hot members followed by INIT_RANDOMS random instances (length-F
vectors whose entries are zero or from AMT_CHOICES), and its cached
nutrition grid is the matrix product of the population with the food
matrix. -/
theorem init_population_structure (E : Engine) (rs : RS) (fuel : ℕ) (pos : RngPos) :
    (initEngine E rs fuel pos).elim True (fun r => initPopSpec E r.1) := by
  rcases hi : initEngine E rs fuel pos with _ | ⟨st, pos1⟩
  · exact trivial
  · simp only [Option.elim]
    simp only [initEngine] at hi
    split_ifs at hi with hF
    rcases hr : randList rs E.food_count fuel INIT_RANDOMS pos with _ | ⟨rnds, p1⟩
    · rw [hr] at hi
      simp at hi
    · rw [hr] at hi
      simp only [] at hi
      cases hi
      rcases randList_spec rs E.food_count fuel INIT_RANDOMS pos rnds _ hr with ⟨hlen, hmem⟩
      refine ⟨?_, ?_, ?_, ?_⟩
      · simp [set_pop, oneHotList_length, hlen]
      · simp only [set_pop]
        have h := List.take_left (oneHotList E.food_count) rnds
        rw [oneHotList_length] at h
        exact h
      · simp only [set_pop]
        have h := List.drop_left (oneHotList E.food_count) rnds
        rw [oneHotList_length] at h
        rw [h]
        exact hmem
      · simp [set_pop]

/-- A successful construction, given a successful run of the random
instance list: the F one-hot members followed by the drawn instances,
installed with set_pop. -/
theorem initEngine_some (E : Engine) (rs : RS) (fuel : ℕ) (pos : RngPos)
    (l : List Vec) (p : RngPos) (hF : ¬ E.food_count = 0)
    (h : randList rs E.food_count fuel INIT_RANDOMS pos = some (l, p)) :
    initEngine E rs fuel pos =
      some (set_pop E ⟨[], [], [], []⟩ (oneHotList E.food_count ++ l), p) := by
  simp only [initEngine]
  rw [if_neg hF, h]

/-- C8 counterexample.  Engine construction performs no validation of
the nutrient targets: with a four-food catalog (large enough for the
binomial probability to be a valid one) and a target whose RDA is
negative and whose UL is zero, construction still succeeds. -/
theorem init_accepts_invalid_targets :
    (initEngine ⟨[foodA, foodB, foodB, foodB], [⟨"320", -900, 0⟩]⟩ rsOne 1
      ⟨0, 0⟩).isSome = true := by
  rw [initEngine_some ⟨[foodA, foodB, foodB, foodB], [⟨"320", -900, 0⟩]⟩ rsOne 1 ⟨0, 0⟩
    (List.replicate INIT_RANDOMS [0, 1, 0, 0]) ⟨0, 0 + 3 * INIT_RANDOMS⟩
    (by simp [Engine.food_count])
    (randList_rsOne4 INIT_RANDOMS 0 0 0)]
  rfl

theorem randList_none_of_head (rs : RS) (F fuel k : ℕ) (pos : RngPos)
    (h : rand_inst rs F fuel pos = none) :
    randList rs F fuel (k + 1) pos = none := by
  simp only [randList, h]

/-- Construction over fewer than RND_EXP_ENTRIES foods is fatal: the
zero-food case divides by zero computing the binomial probability, and
otherwise the probability exceeds 1 and the very first random-instance
draw raises inside the binomial sampler. -/
theorem initEngine_none_of_small (E : Engine) (rs : RS) (fuel : ℕ) (pos : RngPos)
    (hF : E.food_count < RND_EXP_ENTRIES) :
    initEngine E rs fuel pos = none := by
  simp only [initEngine]
  by_cases h0 : E.food_count = 0
  · rw [if_pos h0]
  · rw [if_neg h0]
    have hri : rand_inst rs E.food_count fuel pos = none := by
      simp only [rand_inst]
      rw [if_pos hF]
    rw [show INIT_RANDOMS = 9999 + 1 from rfl,
      randList_none_of_head rs E.food_count fuel 9999 pos hri]

/-- C8 (amended).  Construction is fatal on every catalog of fewer than
RND_EXP_ENTRIES (4) foods: with zero foods the binomial probability
computation divides by zero, and with one to three foods the
probability RND_EXP_ENTRIES/food_count exceeds 1 so the first
random-instance draw raises.  The target list is never validated:
success is independent of the targets, so an empty target list or a
non-positive RDA or UL does not abort construction.  The shipped
ALL_MICROS table is non-empty with every RDA and UL positive, which is
why the unvalidated path never misbehaves in the program. -/
theorem init_fatal_on_small_catalog (micros micros2 : List Micro)
    (details : List Food) (rs : RS) (fuel : ℕ) (pos : RngPos) :
    (details.length < RND_EXP_ENTRIES →
      initEngine ⟨details, micros⟩ rs fuel pos = none) ∧
    (initEngine ⟨details, micros⟩ rs fuel pos).isSome =
      (initEngine ⟨details, micros2⟩ rs fuel pos).isSome ∧
    (∀ m ∈ ALL_MICROS, 0 < m.rda ∧ 0 < m.ul) := by
  refine ⟨fun h => initEngine_none_of_small ⟨details, micros⟩ rs fuel pos h, ?_, ?_⟩
  · simp only [initEngine, Engine.food_count]
    split_ifs with h
    · rfl
    · rcases hr : randList rs details.length fuel INIT_RANDOMS pos with _ | ⟨l, p⟩
      · rfl
      · rfl
  · intro m hm
    fin_cases hm <;> norm_num [ALL_MICROS]

/-! ## The worked example of the fitness evaluator -/

theorem logistic_pos (x : ℝ) : 0 < logistic x := by
  rw [logistic]
  positivity

theorem logistic_lt_one (x : ℝ) : logistic x < 1 := by
  rw [logistic, div_lt_one (by positivity)]
  linarith [Real.exp_pos (-x)]

set_option maxRecDepth 4000 in
theorem ex_foods : exEngine.foods = [[900], [0]] := by
  with_unfolding_all decide

theorem ex_nutr_scores_B : nutr_scores exEngine [900] = [1] := by
  with_unfolding_all decide

theorem ex_nutr_scores_A : nutr_scores exEngine [0] = [0] := by
  with_unfolding_all decide

theorem ex_tooMuch_B : tooMuchSum exEngine [900] = 0 := by
  with_unfolding_all decide

theorem ex_tooMuch_A : tooMuchSum exEngine [0] = 0 := by
  with_unfolding_all decide

set_option maxRecDepth 4000 in
theorem ex_calories_B : calories exEngine.food_details [1, 0] = (100, 0) := by
  with_unfolding_all decide

set_option maxRecDepth 4000 in
theorem ex_calories_A : calories exEngine.food_details [0, 1] = (50, 0) := by
  with_unfolding_all decide

theorem ex_raw_B : rawComponents exEngine [1, 0] [900] = rawClaim := by
  simp only [rawComponents, rawClaim, ex_nutr_scores_B, ex_tooMuch_B, ex_calories_B]
  norm_num [meanQ, RND_EXP_ENTRIES]

theorem ex_raw_A : rawComponents exEngine [0, 1] [0] = rawOther := by
  simp only [rawComponents, rawOther, ex_nutr_scores_A, ex_tooMuch_A, ex_calories_A]
  norm_num [meanQ, RND_EXP_ENTRIES]

theorem ex_score_B :
    score exEngine [1, 0] [900] =
      some (meanR (List.zipWith (· * ·) SCORE_WEIGHTS rawClaim),
            List.zipWith (· * ·) SCORE_WEIGHTS rawClaim) := by
  simp only [score]
  split_ifs with h
  · rw [ex_raw_B]
  · exact absurd ⟨rfl, rfl, rfl, rfl⟩ h

theorem ex_score_A :
    score exEngine [0, 1] [0] =
      some (meanR (List.zipWith (· * ·) SCORE_WEIGHTS rawOther),
            List.zipWith (· * ·) SCORE_WEIGHTS rawOther) := by
  simp only [score]
  split_ifs with h
  · rw [ex_raw_A]
  · exact absurd ⟨rfl, rfl, rfl, rfl⟩ h

/-- C1 (amended).  On the worked example the evaluator returns the
WEIGHTED component vector, the elementwise product of SCORE_WEIGHTS
with the raw components [-1, -0.01, 0, logistic 1, logistic 0.25,
logistic 0], and the scalar score is the mean of that product, which is
the mean-of-weights-times-components value the claim specifies. -/
theorem score_worked_example_weighted :
    score exEngine [1, 0] [900] =
      some (meanR (List.zipWith (· * ·) SCORE_WEIGHTS rawClaim),
            List.zipWith (· * ·) SCORE_WEIGHTS rawClaim) :=
  ex_score_B

/-- C1 counterexample.  The component vector the evaluator returns on
the worked example is not the raw vector [-1, -0.01, 0, logistic 1,
logistic 0.25, logistic 0]: the returned vector is the weighted one
(its first entry is -2, not -1). -/
theorem score_components_not_raw :
    score exEngine [1, 0] [900] ≠
      some (meanR (List.zipWith (· * ·) SCORE_WEIGHTS rawClaim), rawClaim) := by
  rw [ex_score_B]
  intro h
  rw [Option.some_inj] at h
  have h2 : List.zipWith (· * ·) SCORE_WEIGHTS rawClaim = rawClaim := congrArg Prod.snd h
  simp only [SCORE_WEIGHTS, rawClaim, List.zipWith_cons_cons, List.zipWith_nil_right] at h2
  injection h2 with h3 _
  norm_num at h3

set_option maxRecDepth 4000 in
theorem ex_mulRow_B : mulRow [1, 0] exEngine.foods 1 = [900] := by
  rw [ex_foods]
  with_unfolding_all decide

set_option maxRecDepth 4000 in
theorem ex_mulRow_A : mulRow [0, 1] exEngine.foods 1 = [0] := by
  rw [ex_foods]
  with_unfolding_all decide

theorem ex_indivScore_B :
    indivScore exEngine [1, 0] = meanR (List.zipWith (· * ·) SCORE_WEIGHTS rawClaim) := by
  simp only [indivScore, scoreKey]
  rw [show exEngine.micros.length = 1 from rfl, ex_mulRow_B, ex_score_B]
  rfl

theorem ex_indivScore_A :
    indivScore exEngine [0, 1] = meanR (List.zipWith (· * ·) SCORE_WEIGHTS rawOther) := by
  simp only [indivScore, scoreKey]
  rw [show exEngine.micros.length = 1 from rfl, ex_mulRow_A, ex_score_A]
  rfl

theorem ex_score_strict :
    meanR (List.zipWith (· * ·) SCORE_WEIGHTS rawClaim) <
      meanR (List.zipWith (· * ·) SCORE_WEIGHTS rawOther) := by
  simp only [SCORE_WEIGHTS, rawClaim, rawOther, List.zipWith_cons_cons,
    List.zipWith_nil_right, meanR, List.sum_cons, List.sum_nil, List.length_cons,
    List.length_nil]
  have h1 := logistic_lt_one 1
  have h2 := logistic_pos ((1 : ℝ)/2)
  push_cast
  linarith

theorem ex_indivScore_lt : indivScore exEngine [1, 0] < indivScore exEngine [0, 1] := by
  rw [ex_indivScore_B, ex_indivScore_A]
  exact ex_score_strict

/-- C2 (amended).  The tournament selection winner draws two uniform
indices into the population AS THE ENGINE STORES IT (the insertion
order of the previous round, which generation never sorts) and returns
the member at the smaller index; the claimed score inequality
(selected member no worse than the member at the other index) holds
exactly when that stored population happens to be sorted ascending by
score. -/
theorem winner_sorted_score_le (E : Engine) (pop : List Vec) (rs : RS) (np : ℕ)
    (hs : List.Sorted (fun a b => indivScore E a ≤ indivScore E b) pop)
    (hne : pop ≠ []) :
    indivScore E (pop.getD (winner rs pop.length np).1 []) ≤
      indivScore E (pop.getD (max (rs.nats np % pop.length)
        (rs.nats (np + 1) % pop.length)) []) := by
  have hlen : 0 < pop.length := List.length_pos.2 hne
  have h1 : rs.nats np % pop.length < pop.length := Nat.mod_lt _ hlen
  have h2 : rs.nats (np + 1) % pop.length < pop.length := Nat.mod_lt _ hlen
  have hw : (winner rs pop.length np).1 =
      min (rs.nats np % pop.length) (rs.nats (np + 1) % pop.length) := rfl
  rw [hw]
  have hmin : min (rs.nats np % pop.length) (rs.nats (np + 1) % pop.length) <
      pop.length := lt_of_le_of_lt (min_le_left _ _) h1
  have hmax : max (rs.nats np % pop.length) (rs.nats (np + 1) % pop.length) <
      pop.length := max_lt h1 h2
  rw [List.getD_eq_getElem pop [] hmin, List.getD_eq_getElem pop [] hmax]
  letI : IsRefl Vec (fun a b => indivScore E a ≤ indivScore E b) :=
    ⟨fun a => le_refl _⟩
  have hrel := @List.Sorted.rel_get_of_le Vec
    (fun a b => indivScore E a ≤ indivScore E b) _ pop hs
    ⟨min (rs.nats np % pop.length) (rs.nats (np + 1) % pop.length), hmin⟩
    ⟨max (rs.nats np % pop.length) (rs.nats (np + 1) % pop.length), hmax⟩
    (by simp [Fin.le_def, min_le_max])
  simpa using hrel

/-- Witness for C2 at the worked-example engine, a two-member sorted
population and the identity index draws. -/
theorem winner_sorted_score_le_witness :
    (List.Sorted (fun a b => indivScore exEngine a ≤ indivScore exEngine b)
       [[1, 0], [0, 1]] ∧ ([[1, 0], [0, 1]] : List Vec) ≠ []) ∧
    indivScore exEngine (([[1, 0], [0, 1]] : List Vec).getD
        (winner rsSeq ([[1, 0], [0, 1]] : List Vec).length 0).1 []) ≤
      indivScore exEngine (([[1, 0], [0, 1]] : List Vec).getD
        (max (rsSeq.nats 0 % ([[1, 0], [0, 1]] : List Vec).length)
          (rsSeq.nats (0 + 1) % ([[1, 0], [0, 1]] : List Vec).length)) []) := by
  have hsort : List.Sorted (fun a b => indivScore exEngine a ≤ indivScore exEngine b)
      [[1, 0], [0, 1]] := by
    simp [List.sorted_cons]
    exact ex_indivScore_lt.le
  exact ⟨⟨hsort, by simp⟩,
    winner_sorted_score_le exEngine [[1, 0], [0, 1]] rsSeq 0 hsort (by simp)⟩

/-- C2 counterexample.  With the population stored as [[0,1],[1,0]]
(the engine does not sort it) and index draws 0 and 1, the winner is
the member [0,1] at index 0, whose score is strictly worse than the
score of the member [1,0] at the other drawn index: the claimed
inequality fails. -/
theorem winner_not_score_ordered :
    (winner rsSeq (([[0, 1], [1, 0]] : List Vec).length) 0).1 = 0 ∧
    ¬ (indivScore exEngine (([[0, 1], [1, 0]] : List Vec).getD
          (winner rsSeq (([[0, 1], [1, 0]] : List Vec).length) 0).1 []) ≤
       indivScore exEngine (([[0, 1], [1, 0]] : List Vec).getD
          (max (rsSeq.nats 0 % ([[0, 1], [1, 0]] : List Vec).length)
            (rsSeq.nats (0 + 1) % ([[0, 1], [1, 0]] : List Vec).length)) [])) := by
  constructor
  · rfl
  · show ¬ (indivScore exEngine [0, 1] ≤ indivScore exEngine [1, 0])
    exact not_le.2 ex_indivScore_lt
